import Mathlib

/-!
Verification of the tantivy segment merger (`src/indexer/merger.rs`).

The Rust code is shallowly embedded: segment readers become a structure of
accessor functions, `u32`/`u64` quantities become `Nat` (with explicit
`% 2 ^ 32` where the source's wrapping arithmetic can influence behaviour),
fallible operations return `Except`, and panics are modelled as `Option`
results.  External collaborators of the merger (term-dictionary merger,
`itertools::kmerge_by`, the `tantivy_bitpacker::minmax` helper, the
`MAX_DOC_LIMIT` constant) are not part of the extracted source; they are
modelled from the specification, as indicated in their doc comments.
-/

namespace TantivyMerger

/-- Sort order of an index sort field (`crate::Order`). -/
inductive Order where
  | asc
  | desc
deriving DecidableEq

/-- Model of `crate::IndexSortByField`: the name of the sort field and the order. -/
structure IndexSortByField where
  field : String
  order : Order

/-- Model of `Order::is_asc`. -/
def Order.is_asc : Order → Bool
  | .asc => true
  | .desc => false

/-- Model of `crate::core::SegmentReader`, restricted to the observations the
merger makes of it.  `deleteBitset` is `some isAlive` when the segment has a
delete bitset (`has_deletes`), `none` otherwise.  `fastVal` is the u64
fast-field accessor `get(doc)` for the field under consideration, with
`minValue`/`maxValue` its stored `min_value()`/`max_value()` statistics.
`fieldnormId` is the per-document 1-byte fieldnorm id, and `facetVals` is the
multi-valued u64 accessor `get_vals(doc)` used for hierarchical facets. -/
structure SegmentReaderModel where
  maxDoc : Nat
  deleteBitset : Option (Nat → Bool)
  fastVal : Nat → Nat
  minValue : Nat
  maxValue : Nat
  totalNumTokens : Nat
  fieldnormId : Nat → Nat
  facetVals : Nat → List Nat

instance : Inhabited SegmentReaderModel :=
  ⟨⟨0, none, fun _ => 0, 0, 0, 0, fun _ => 0, fun _ => []⟩⟩

/-- Model of `SegmentReader::is_alive`: a document is alive when there is no
delete bitset or the bitset marks it alive. -/
def isAlive (r : SegmentReaderModel) (doc : Nat) : Bool :=
  match r.deleteBitset with
  | some bitset => bitset doc
  | none => true

/-- Model of `SegmentReader::is_deleted`. -/
def isDeleted (r : SegmentReaderModel) (doc : Nat) : Bool :=
  !(isAlive r doc)

/-- Model of `SegmentReader::has_deletes`. -/
def hasDeletes (r : SegmentReaderModel) : Bool :=
  r.deleteBitset.isSome

/-- Model of `SegmentReader::doc_ids_alive`: the ascending list of live doc ids. -/
def docIdsAlive (r : SegmentReaderModel) : List Nat :=
  (List.range r.maxDoc).filter (isAlive r)

/-- Model of `SegmentReader::num_docs`: the number of live documents. -/
def numDocs (r : SegmentReaderModel) : Nat :=
  (docIdsAlive r).length

theorem numDocs_of_no_deletes (r : SegmentReaderModel) (h : r.deleteBitset = none) :
    numDocs r = r.maxDoc := by
  unfold numDocs docIdsAlive
  rw [List.filter_eq_self.mpr, List.length_range]
  intro a _
  simp [isAlive, h]

theorem docIdsAlive_pairwise_lt (r : SegmentReaderModel) :
    (docIdsAlive r).Pairwise (· < ·) :=
  (List.pairwise_lt_range r.maxDoc).filter (isAlive r)

theorem mem_docIdsAlive {r : SegmentReaderModel} {d : Nat} :
    d ∈ docIdsAlive r ↔ d < r.maxDoc ∧ isAlive r d = true := by
  simp [docIdsAlive, List.mem_filter]

/-! ## Claim C1: the stacking decision (merger.rs lines 395-413 and 1053-1064) -/

/-- Model of `IndexMerger::is_disjunct_and_sorted_on_sort_property`
(merger.rs lines 395-413): every consecutive pair of readers (the
`tuple_windows` of the reader list) satisfies `max1 <= min2` for ascending
order and `min1 >= max2` for descending order, on the sort-field accessor. -/
def is_disjunct_and_sorted_on_sort_property
    (sortByField : IndexSortByField) (readers : List SegmentReaderModel) : Bool :=
  (readers.zip readers.tail).all fun p =>
    if sortByField.order.is_asc then
      decide (p.1.maxValue ≤ p.2.minValue)
    else
      decide (p.1.minValue ≥ p.2.maxValue)

/-- Model of the doc-id-mapping decision taken by
`<IndexMerger as SerializableSegment>::write` (merger.rs lines 1053-1064):
the merge builds an explicit `DocIdMapping` exactly when a sort field is
configured and the pre-sorted readers are not disjunct-and-sorted; otherwise
it runs in stacking mode. -/
def buildsDocIdMapping
    (sortByField : Option IndexSortByField) (readers : List SegmentReaderModel) : Bool :=
  match sortByField with
  | some s => !(is_disjunct_and_sorted_on_sort_property s readers)
  | none => false

theorem all_zip_tail_iff_getElem {α : Type} (p : α × α → Bool) :
    ∀ l : List α,
      ((l.zip l.tail).all p = true ↔
        ∀ i a b, l[i]? = some a → l[i + 1]? = some b → p (a, b) = true)
  | [] => by simp
  | [a] => by simp
  | a :: b :: t => by
    have ih := all_zip_tail_iff_getElem p (b :: t)
    constructor
    · intro h i x y hx hy
      simp only [List.tail_cons, List.zip_cons_cons, List.all_cons, Bool.and_eq_true] at h
      match i, hx, hy with
      | 0, hx, hy =>
        simp only [List.getElem?_cons_zero, Option.some.injEq] at hx
        simp only [List.getElem?_cons_succ, List.getElem?_cons_zero, Option.some.injEq] at hy
        subst hx; subst hy
        exact h.1
      | (j + 1), hx, hy =>
        rw [List.getElem?_cons_succ] at hx
        rw [List.getElem?_cons_succ] at hy
        exact (ih.mp h.2) j x y hx hy
    · intro h
      simp only [List.tail_cons, List.zip_cons_cons, List.all_cons, Bool.and_eq_true]
      refine ⟨h 0 a b (by simp) (by simp), ih.mpr ?_⟩
      intro j x y hx hy
      refine h (j + 1) x y ?_ ?_
      · rw [List.getElem?_cons_succ]; exact hx
      · rw [List.getElem?_cons_succ]; exact hy

/-- Claim C1: the top-level merge runs in stacking mode (builds no
`DocIdMapping`) iff either no sort field is configured, or every consecutive
pair of readers in the (sort-preordered) reader list satisfies
`max_i ≤ min_{i+1}` for ascending order and `min_i ≥ max_{i+1}` for
descending order on the sort-field accessor. -/
theorem claim_C1 (sortByField : Option IndexSortByField) (readers : List SegmentReaderModel) :
    buildsDocIdMapping sortByField readers = false ↔
      sortByField = none ∨
        ∃ s, sortByField = some s ∧
          ∀ i r₁ r₂, readers[i]? = some r₁ → readers[i + 1]? = some r₂ →
            ((s.order = Order.asc → r₁.maxValue ≤ r₂.minValue) ∧
             (s.order = Order.desc → r₁.minValue ≥ r₂.maxValue)) := by
  cases sortByField with
  | none => simp [buildsDocIdMapping]
  | some s =>
    simp only [buildsDocIdMapping, Bool.not_eq_false']
    unfold is_disjunct_and_sorted_on_sort_property
    rw [all_zip_tail_iff_getElem]
    constructor
    · intro h
      refine Or.inr ⟨s, rfl, fun i r₁ r₂ h₁ h₂ => ?_⟩
      have hc := h i r₁ r₂ h₁ h₂
      constructor
      · intro ha
        rw [ha] at hc
        simpa [Order.is_asc] using hc
      · intro hd
        rw [hd] at hc
        simpa [Order.is_asc] using hc
    · rintro (h | ⟨s', hs', h⟩)
      · exact absurd h (by simp)
      · obtain rfl : s = s' := by injection hs'
        intro i r₁ r₂ h₁ h₂
        have hc := h i r₁ r₂ h₁ h₂
        cases horder : s.order with
        | asc => simpa [Order.is_asc] using hc.1 horder
        | desc => simpa [Order.is_asc] using hc.2 horder

/-- Witness for C1 at a concrete input: with no sort field configured, the
merge runs in stacking mode. -/
theorem claim_C1_witness :
    buildsDocIdMapping none [default, default] = false :=
  (claim_C1 none [default, default]).mpr (Or.inl rfl)

/-! ## Claim C5: DeltaComputer::compute_delta (merger.rs lines 149-171) -/

/-- Wrapping u32 subtraction, the release-mode semantics of the Rust
expression `cur_pos - last_pos` on `u32` operands. -/
def u32Sub (a b : Nat) : Nat :=
  (a + (2 ^ 32 - b % 2 ^ 32)) % 2 ^ 32

/-- Loop of `DeltaComputer::compute_delta` (merger.rs lines 160-169): each
output entry is the current position minus the running `last_pos`, which is
then updated to the current position. -/
def computeDeltaAux : Nat → List Nat → List Nat
  | _, [] => []
  | last, p :: ps => u32Sub p last :: computeDeltaAux p ps

/-- Model of `DeltaComputer::compute_delta`: the running position `last_pos`
starts at `0u32` on every call, so the computation is confined to the single
`(term, doc)` position list passed in. -/
def compute_delta (positions : List Nat) : List Nat :=
  computeDeltaAux 0 positions

theorem u32Sub_eq_sub {a b : Nat} (hba : b ≤ a) (ha : a < 2 ^ 32) : u32Sub a b = a - b := by
  unfold u32Sub
  rw [Nat.mod_eq_of_lt (lt_of_le_of_lt hba ha)]
  have h1 : a + (2 ^ 32 - b) = 2 ^ 32 + (a - b) := by omega
  rw [h1, Nat.add_mod_left]
  exact Nat.mod_eq_of_lt (by omega)

theorem computeDeltaAux_length : ∀ (last : Nat) (ps : List Nat),
    (computeDeltaAux last ps).length = ps.length
  | _, [] => rfl
  | last, p :: ps => by
    simp only [computeDeltaAux, List.length_cons, computeDeltaAux_length p ps]

theorem computeDeltaAux_take_sum :
    ∀ (ps : List Nat) (last i : Nat) (hi : i < ps.length),
      (∀ p ∈ ps, p < 2 ^ 32) → List.Chain' (· ≤ ·) (last :: ps) →
      last + ((computeDeltaAux last ps).take (i + 1)).sum = ps[i]
  | p :: ps, last, i, hi, hb, hc => by
    have hlp : last ≤ p := (List.chain'_cons.mp hc).1
    have hpb : p < 2 ^ 32 := hb p (List.mem_cons_self p ps)
    cases i with
    | zero =>
      simp only [computeDeltaAux, List.take_succ_cons, List.take_zero, List.sum_cons,
        List.sum_nil, List.getElem_cons_zero, Nat.add_zero, u32Sub_eq_sub hlp hpb]
      omega
    | succ j =>
      have ih := computeDeltaAux_take_sum ps p j (by simpa using hi)
        (fun q hq => hb q (List.mem_cons_of_mem p hq)) (List.chain'_cons.mp hc).2
      simp only [computeDeltaAux, List.take_succ_cons, List.sum_cons,
        List.getElem_cons_succ, u32Sub_eq_sub hlp hpb]
      omega

/-- Claim C5: for a (bounded, ascending) list of absolute positions, the
delta list produced by `DeltaComputer::compute_delta` has the same length and
its prefix sums reconstruct the absolute positions exactly; since the running
position starts at 0, the first delta equals the first absolute position
(the `i = 0` case). -/
theorem claim_C5 (positions : List Nat)
    (hBound : ∀ p ∈ positions, p < 2 ^ 32)
    (hSorted : positions.Chain' (· ≤ ·)) :
    (compute_delta positions).length = positions.length ∧
      ∀ i, (hi : i < positions.length) →
        ((compute_delta positions).take (i + 1)).sum = positions[i] := by
  refine ⟨computeDeltaAux_length 0 positions, fun i hi => ?_⟩
  have hchain : List.Chain' (· ≤ ·) (0 :: positions) :=
    List.chain'_cons'.mpr ⟨fun h _ => Nat.zero_le h, hSorted⟩
  have := computeDeltaAux_take_sum positions 0 i hi hBound hchain
  simpa [compute_delta] using this

/-- Witness for C5 at the concrete position list `[2, 5, 5, 9]`. -/
theorem claim_C5_witness :
    (compute_delta [2, 5, 5, 9]).length = 4 ∧
      ((compute_delta [2, 5, 5, 9]).take 3).sum = 5 :=
  ⟨(claim_C5 [2, 5, 5, 9] (by decide) (by simp [List.chain'_cons])).1,
   (claim_C5 [2, 5, 5, 9] (by decide) (by simp [List.chain'_cons])).2 2 (by decide)⟩

/-! ## Claim C4: term survival during the term merge (merger.rs lines 867-901) -/

/-- Per-segment posting information for one term during the term k-way merge:
whether the segment reader has a delete bitset, the raw `doc_freq()` of the
term info, and the delete-aware `doc_freq_given_deletes(...)`. -/
structure TermSegmentPostings where
  hasDeletes : Bool
  docFreq : Nat
  docFreqGivenDeletes : Nat

/-- Delete-aware doc frequency of a segment for the current term
(merger.rs lines 879-884): `doc_freq_given_deletes` when the segment has a
delete bitset, `doc_freq` otherwise. -/
def effectiveDocFreq (t : TermSegmentPostings) : Nat :=
  if t.hasDeletes then t.docFreqGivenDeletes else t.docFreq

/-- Model of the `total_doc_freq` accumulation loop (merger.rs lines
871-889): segments with positive delete-aware doc frequency contribute to the
`u32` total (wrapping) and are retained as the posting lists to drain. -/
def collectTermDocFreq (infos : List TermSegmentPostings) : Nat × List TermSegmentPostings :=
  infos.foldl
    (fun acc t =>
      if 0 < effectiveDocFreq t then ((acc.1 + effectiveDocFreq t) % 2 ^ 32, acc.2 ++ [t])
      else acc)
    (0, [])

/-- Model of merger.rs lines 895-901: when `total_doc_freq == 0` the term is
skipped entirely (no output term, no term ordinal); otherwise `new_term` is
called with `total_doc_freq`, modelled as `some total_doc_freq`. -/
def processMergedTerm (infos : List TermSegmentPostings) : Option Nat :=
  if (collectTermDocFreq infos).1 = 0 then none else some (collectTermDocFreq infos).1

theorem collectTermDocFreq_go_fst :
    ∀ (infos : List TermSegmentPostings) (a : Nat) (kept : List TermSegmentPostings),
      a + (infos.map effectiveDocFreq).sum < 2 ^ 32 →
      (infos.foldl
        (fun acc t =>
          if 0 < effectiveDocFreq t then ((acc.1 + effectiveDocFreq t) % 2 ^ 32, acc.2 ++ [t])
          else acc)
        (a, kept)).1 = a + (infos.map effectiveDocFreq).sum
  | [], a, kept, _ => by simp
  | t :: ts, a, kept, h => by
    simp only [List.map_cons, List.sum_cons] at h
    simp only [List.foldl_cons, List.map_cons, List.sum_cons]
    by_cases hdf : 0 < effectiveDocFreq t
    · rw [if_pos hdf, Nat.mod_eq_of_lt (by omega)]
      rw [collectTermDocFreq_go_fst ts (a + effectiveDocFreq t) (kept ++ [t]) (by omega)]
      omega
    · rw [if_neg hdf]
      rw [collectTermDocFreq_go_fst ts a kept (by omega)]
      omega

theorem collectTermDocFreq_fst (infos : List TermSegmentPostings)
    (h : (infos.map effectiveDocFreq).sum < 2 ^ 32) :
    (collectTermDocFreq infos).1 = (infos.map effectiveDocFreq).sum := by
  have := collectTermDocFreq_go_fst infos 0 [] (by simpa using h)
  simpa [collectTermDocFreq] using this

/-- Claim C4: a term encountered by the term k-way merge is written iff the
sum over contributing segments of the delete-aware doc frequency is nonzero;
when written, that sum is the doc frequency passed to `new_term`, and when it
is zero no term is emitted. -/
theorem claim_C4 (infos : List TermSegmentPostings)
    (hNoOverflow : (infos.map effectiveDocFreq).sum < 2 ^ 32) :
    (processMergedTerm infos = none ↔ (infos.map effectiveDocFreq).sum = 0) ∧
      (0 < (infos.map effectiveDocFreq).sum →
        processMergedTerm infos = some (infos.map effectiveDocFreq).sum) := by
  have hfst := collectTermDocFreq_fst infos hNoOverflow
  refine ⟨⟨fun h => ?_, fun h => ?_⟩, fun h => ?_⟩
  · by_contra hne
    simp [processMergedTerm, hfst, hne] at h
  · simp [processMergedTerm, hfst, h]
  · have hne : (infos.map effectiveDocFreq).sum ≠ 0 := by omega
    simp [processMergedTerm, hfst, hne]

/-- Witness for C4: one segment with deletes (delete-aware frequency 2) and
one without (frequency 3); the term survives with total doc frequency 5. -/
theorem claim_C4_witness :
    processMergedTerm [⟨true, 5, 2⟩, ⟨false, 3, 99⟩] = some 5 :=
  (claim_C4 [⟨true, 5, 2⟩, ⟨false, 3, 99⟩] (by decide)).2 (by decide)

/-! ## Claim C6: IndexMerger::open (merger.rs lines 174-206) -/

/-- Errors surfaced by the modelled merger operations.  `invalidArgument`
carries the offending `max_doc` and the cap named in the error message;
`dataCorruption` carries the old doc id named in the message. -/
inductive MergeError where
  | invalidArgument (maxDoc cap : Nat)
  | dataCorruption (oldDocId : Nat)
deriving DecidableEq

/-- Modelled from the spec: `crate::common::MAX_DOC_LIMIT`, the hard
document-id cap ("implementation constant, currently `2^31`"); the constant
lives outside the extracted source file. -/
def MAX_DOC_LIMIT : Nat := 2 ^ 31

/-- Model of `IndexMerger::sort_readers_by_min_sort_field` (merger.rs lines
208-230): stable sort of the readers by the sort-field accessor
`min_value()`, ascending or descending per the configured order. -/
def sort_readers_by_min_sort_field (s : IndexSortByField)
    (readers : List SegmentReaderModel) : List SegmentReaderModel :=
  if s.order.is_asc then
    readers.mergeSort fun a b => decide (a.minValue ≤ b.minValue)
  else
    readers.mergeSort fun a b => decide (b.minValue ≤ a.minValue)

/-- Readers admitted by `IndexMerger::open`: the candidate segments whose
document count is nonzero (merger.rs lines 181-187). -/
def openKeptReaders (segments : List SegmentReaderModel) : List SegmentReaderModel :=
  segments.filter fun s => decide (0 < numDocs s)

/-- The `max_doc` accumulator of `IndexMerger::open`: a `u32` running sum of
the admitted readers' `num_docs`, wrapping modulo `2 ^ 32`. -/
def openMaxDoc (segments : List SegmentReaderModel) : Nat :=
  (openKeptReaders segments).foldl (fun acc r => (acc + numDocs r) % 2 ^ 32) 0

/-- Reader list produced by `IndexMerger::open`: the admitted readers,
pre-sorted by min sort value when a sort field is configured. -/
def openReaders (indexSettings : Option IndexSortByField)
    (segments : List SegmentReaderModel) : List SegmentReaderModel :=
  match indexSettings with
  | some s => sort_readers_by_min_sort_field s (openKeptReaders segments)
  | none => openKeptReaders segments

/-- Model of `IndexMerger::open` (merger.rs lines 174-206): skip empty
segments, accumulate `max_doc`, pre-sort the readers when a sort field is
configured, and fail with `InvalidArgument` naming the cap when `max_doc`
reaches `MAX_DOC_LIMIT`. -/
def openMerger (indexSettings : Option IndexSortByField)
    (segments : List SegmentReaderModel) :
    Except MergeError (List SegmentReaderModel × Nat) :=
  if MAX_DOC_LIMIT ≤ openMaxDoc segments then
    Except.error (MergeError.invalidArgument (openMaxDoc segments) MAX_DOC_LIMIT)
  else
    Except.ok (openReaders indexSettings segments, openMaxDoc segments)

theorem foldl_add_mod_eq_sum (M : Nat) :
    ∀ (l : List Nat) (a : Nat), a + l.sum < M →
      l.foldl (fun acc x => (acc + x) % M) a = a + l.sum
  | [], a, _ => by simp
  | x :: xs, a, h => by
    simp only [List.sum_cons] at h
    simp only [List.foldl_cons, List.sum_cons]
    rw [Nat.mod_eq_of_lt (by omega)]
    rw [foldl_add_mod_eq_sum M xs (a + x) (by omega)]
    omega

theorem openReaders_perm (indexSettings : Option IndexSortByField)
    (segments : List SegmentReaderModel) :
    (openReaders indexSettings segments).Perm (openKeptReaders segments) := by
  cases indexSettings with
  | none => exact List.Perm.refl _
  | some s =>
    show (sort_readers_by_min_sort_field s (openKeptReaders segments)).Perm
      (openKeptReaders segments)
    unfold sort_readers_by_min_sort_field
    by_cases hasc : s.order.is_asc = true
    · rw [if_pos hasc]; exact List.mergeSort_perm _ _
    · rw [if_neg hasc]; exact List.mergeSort_perm _ _

/-- Claim C6 (amended): `IndexMerger::open` skips zero-document segments and
fails with `InvalidArgument` naming the cap exactly when the *u32-wrapped*
sum of the remaining segments' `num_docs` meets or exceeds `MAX_DOC_LIMIT`;
the wrapped sum agrees with the mathematical sum whenever the latter is below
`2 ^ 32`, and every successful open returns `new_max_doc` strictly below the
cap together with (a permutation of) the admitted readers. -/
theorem claim_C6 (indexSettings : Option IndexSortByField)
    (segments : List SegmentReaderModel) :
    ((∃ e, openMerger indexSettings segments = Except.error e) ↔
        MAX_DOC_LIMIT ≤ openMaxDoc segments) ∧
      (MAX_DOC_LIMIT ≤ openMaxDoc segments →
        openMerger indexSettings segments =
          Except.error (MergeError.invalidArgument (openMaxDoc segments) MAX_DOC_LIMIT)) ∧
      (∀ rs md, openMerger indexSettings segments = Except.ok (rs, md) →
        md = openMaxDoc segments ∧ md < MAX_DOC_LIMIT ∧
          rs.Perm (openKeptReaders segments) ∧ ∀ r ∈ rs, 0 < numDocs r) ∧
      (((openKeptReaders segments).map numDocs).sum < 2 ^ 32 →
        openMaxDoc segments = ((openKeptReaders segments).map numDocs).sum) := by
  refine ⟨⟨fun h => ?_, fun h => ?_⟩, fun h => ?_, fun rs md hok => ?_, fun h => ?_⟩
  · by_contra hc
    obtain ⟨e, he⟩ := h
    unfold openMerger at he
    rw [if_neg hc] at he
    cases he
  · exact ⟨_, by unfold openMerger; rw [if_pos h]⟩
  · unfold openMerger
    rw [if_pos h]
  · unfold openMerger at hok
    by_cases hc : MAX_DOC_LIMIT ≤ openMaxDoc segments
    · rw [if_pos hc] at hok; cases hok
    · rw [if_neg hc] at hok
      obtain ⟨hrs, hmd⟩ : rs = openReaders indexSettings segments ∧ md = openMaxDoc segments := by
        cases hok; exact ⟨rfl, rfl⟩
      subst hrs; subst hmd
      refine ⟨rfl, by omega, openReaders_perm indexSettings segments, fun r hr => ?_⟩
      have hmem : r ∈ openKeptReaders segments :=
        (openReaders_perm indexSettings segments).mem_iff.mp hr
      have := (List.mem_filter.mp hmem).2
      simpa using this
  · unfold openMaxDoc
    rw [← List.foldl_map numDocs (fun acc x => (acc + x) % 2 ^ 32)]
    have := foldl_add_mod_eq_sum (2 ^ 32) ((openKeptReaders segments).map numDocs) 0
      (by simpa using h)
    simpa using this

/-- Concrete segment with `2^31 - 1` documents and no deletes. -/
def hugeSegment : SegmentReaderModel :=
  { maxDoc := 2 ^ 31 - 1
    deleteBitset := none
    fastVal := fun _ => 0
    minValue := 0
    maxValue := 0
    totalNumTokens := 0
    fieldnormId := fun _ => 0
    facetVals := fun _ => [] }

/-- Counterexample for C6 as stated: three segments of `2^31 - 1` documents
each have a combined `num_docs` sum of `3 * (2^31 - 1) ≥ MAX_DOC_LIMIT`, yet
`open` succeeds because the `u32` accumulator wraps to `2147483645 <
MAX_DOC_LIMIT`. -/
theorem claim_C6_counterexample :
    MAX_DOC_LIMIT ≤ numDocs hugeSegment + numDocs hugeSegment + numDocs hugeSegment ∧
      openMerger none [hugeSegment, hugeSegment, hugeSegment] =
        Except.ok ([hugeSegment, hugeSegment, hugeSegment], 2147483645) := by
  have hnum : numDocs hugeSegment = 2 ^ 31 - 1 := numDocs_of_no_deletes hugeSegment rfl
  have hkeep : openKeptReaders [hugeSegment, hugeSegment, hugeSegment] =
      [hugeSegment, hugeSegment, hugeSegment] := by
    unfold openKeptReaders
    apply List.filter_eq_self.mpr
    intro a ha
    have : a = hugeSegment := by
      simp only [List.mem_cons, List.not_mem_nil, or_false] at ha
      rcases ha with h | h | h <;> exact h
    subst this
    rewrite [hnum]
    norm_num
  have hmax : openMaxDoc [hugeSegment, hugeSegment, hugeSegment] = 2147483645 := by
    unfold openMaxDoc
    rewrite [hkeep, ← List.foldl_map numDocs (fun acc x => (acc + x) % 2 ^ 32)]
    rewrite [List.map_cons, List.map_cons, List.map_cons, List.map_nil, hnum]
    decide
  refine ⟨by rewrite [hnum]; norm_num [MAX_DOC_LIMIT], ?_⟩
  unfold openMerger
  rewrite [hmax, if_neg (by norm_num [MAX_DOC_LIMIT])]
  show Except.ok (openKeptReaders [hugeSegment, hugeSegment, hugeSegment], 2147483645) = _
  rewrite [hkeep]
  exact rfl

/-- Concrete small deletion-free segment used by witnesses. -/
def smallSegment : SegmentReaderModel :=
  { maxDoc := 3
    deleteBitset := none
    fastVal := fun d => d
    minValue := 0
    maxValue := 2
    totalNumTokens := 6
    fieldnormId := fun _ => 1
    facetVals := fun _ => [0] }

/-- Witness for C6: on a small deletion-free segment the wrapped `max_doc`
accumulator equals the mathematical sum of the admitted readers' `num_docs`. -/
theorem claim_C6_witness :
    openMaxDoc [smallSegment] = ((openKeptReaders [smallSegment]).map numDocs).sum :=
  (claim_C6 none [smallSegment]).2.2.2 (by decide)

/-! ## Claim C10: compute_min_max_val and the empty-readers expect
(merger.rs lines 91-116 and 317-333) -/

/-- Modelled from the spec: `tantivy_bitpacker::minmax`, the running min/max
of an iterator, `None` when the iterator is empty (the helper lives outside
the extracted source file). -/
def minmax (vals : List Nat) : Option (Nat × Nat) :=
  vals.foldl
    (fun acc v =>
      match acc with
      | none => some (v, v)
      | some p => some (min p.1 v, max p.2 v))
    none

/-- Model of `compute_min_max_val` (merger.rs lines 91-116): `None` for an
empty segment; with a delete bitset, the recomputed min/max over live
documents; otherwise the stored column statistics. -/
def compute_min_max_val (r : SegmentReaderModel) : Option (Nat × Nat) :=
  if r.maxDoc = 0 then none
  else
    match r.deleteBitset with
    | some bitset => minmax (((List.range r.maxDoc).filter fun d => bitset d).map r.fastVal)
    | none => some (r.minValue, r.maxValue)

/-- The `Iterator::reduce` combining per-reader pairs with pointwise min/max
(merger.rs lines 330-333): `None` on an empty iterator. -/
def reduceMinMax (l : List (Nat × Nat)) : Option (Nat × Nat) :=
  match l with
  | [] => none
  | x :: xs => some (xs.foldl (fun a b => (min a.1 b.1, max a.2 b.2)) x)

/-- The min/max computation opening `write_single_fast_field` (merger.rs
lines 323-333).  In the source a `none` result hits
`.expect("Unexpected error, empty readers in IndexMerger")`, i.e. a panic
rather than an error return. -/
def singleFastFieldMinMax (readers : List SegmentReaderModel) : Option (Nat × Nat) :=
  reduceMinMax ((readers.map compute_min_max_val).filterMap id)

theorem minmax_foldl_isSome :
    ∀ (l : List Nat) (acc : Option (Nat × Nat)), acc.isSome →
      (l.foldl
        (fun acc v =>
          match acc with
          | none => some (v, v)
          | some p => some (min p.1 v, max p.2 v))
        acc).isSome
  | [], _, h => h
  | v :: vs, acc, h => by
    cases acc with
    | none => cases h
    | some p => exact minmax_foldl_isSome vs (some (min p.1 v, max p.2 v)) rfl

theorem minmax_cons_isSome (v : Nat) (vs : List Nat) : (minmax (v :: vs)).isSome :=
  minmax_foldl_isSome vs (some (v, v)) rfl

theorem compute_min_max_val_isSome (r : SegmentReaderModel) (h : 0 < numDocs r) :
    (compute_min_max_val r).isSome := by
  have hmd : r.maxDoc ≠ 0 := by
    intro h0
    have hle : numDocs r ≤ r.maxDoc := by
      have := List.length_filter_le (isAlive r) (List.range r.maxDoc)
      simpa [numDocs, docIdsAlive] using this
    omega
  unfold compute_min_max_val
  rw [if_neg hmd]
  cases hb : r.deleteBitset with
  | none => rfl
  | some bitset =>
    have hfilter : (List.range r.maxDoc).filter (fun d => bitset d) = docIdsAlive r := by
      unfold docIdsAlive
      apply List.filter_congr
      intro d _
      simp [isAlive, hb]
    show (minmax (((List.range r.maxDoc).filter fun d => bitset d).map r.fastVal)).isSome = true
    rw [hfilter]
    have hne : docIdsAlive r ≠ [] := by
      intro hnil
      unfold numDocs at h
      rw [hnil] at h
      simp at h
    cases hlist : docIdsAlive r with
    | nil => exact absurd hlist hne
    | cons d ds =>
      rw [List.map_cons]
      exact minmax_cons_isSome (r.fastVal d) (ds.map r.fastVal)

/-- Claim C10: every admitted reader (nonzero `num_docs`) yields `some` from
`compute_min_max_val`, so for a nonempty reader list the `expect` in
`write_single_fast_field` is unreachable; but on an empty reader list (all
candidate segments empty) the reduction is `none`, i.e. the merge write
panics at that `expect` instead of returning an error. -/
theorem claim_C10 (readers : List SegmentReaderModel) (hne : readers ≠ [])
    (hadmitted : ∀ r ∈ readers, 0 < numDocs r) :
    ((∀ r ∈ readers, (compute_min_max_val r).isSome) ∧
        (singleFastFieldMinMax readers).isSome) ∧
      singleFastFieldMinMax [] = none := by
  refine ⟨⟨fun r hr => compute_min_max_val_isSome r (hadmitted r hr), ?_⟩, rfl⟩
  cases readers with
  | nil => exact absurd rfl hne
  | cons r rest =>
    have h1 : (compute_min_max_val r).isSome :=
      compute_min_max_val_isSome r (hadmitted r (List.mem_cons_self r rest))
    obtain ⟨p, hp⟩ := Option.isSome_iff_exists.mp h1
    unfold singleFastFieldMinMax
    rw [List.map_cons, hp]
    simp only [List.filterMap_cons, id]
    rfl

/-- Concrete segment with a delete bitset keeping only doc 0. -/
def delSegment : SegmentReaderModel :=
  { maxDoc := 2
    deleteBitset := some fun d => d == 0
    fastVal := fun d => d + 7
    minValue := 7
    maxValue := 8
    totalNumTokens := 5
    fieldnormId := fun _ => 2
    facetVals := fun _ => [0] }

/-- Witness for C10 on a two-reader list with one deletion-carrying reader. -/
theorem claim_C10_witness :
    (singleFastFieldMinMax [smallSegment, delSegment]).isSome :=
  ((claim_C10 [smallSegment, delSegment] (List.cons_ne_nil _ _) (by decide)).1).2

/-! ## Claim C7: compute_total_num_tokens (merger.rs lines 37-62) -/

/-- Inner loop of `compute_total_num_tokens` for a segment with deletes
(merger.rs lines 44-48): bump the 256-bucket histogram at the fieldnorm id of
every live document.  `fieldnorm_id` has type `u8`, modelled by reducing
modulo 256. -/
def histogramAdd (r : SegmentReaderModel) (count : Nat → Nat) : Nat → Nat :=
  (docIdsAlive r).foldl
    (fun cnt d =>
      Function.update cnt (r.fieldnormId d % 256) (cnt (r.fieldnormId d % 256) + 1))
    count

/-- Reader loop of `compute_total_num_tokens` (merger.rs lines 40-52): the
exact token total over delete-free segments together with the shared
histogram over segments with deletes. -/
def totalNumTokensState (readers : List SegmentReaderModel) : Nat × (Nat → Nat) :=
  readers.foldl
    (fun st r =>
      if hasDeletes r then (st.1, histogramAdd r st.2)
      else (st.1 + r.totalNumTokens, st.2))
    (0, fun _ => 0)

/-- Model of `compute_total_num_tokens` (merger.rs lines 37-62),
parameterized by the external `FieldNormReader::id_to_fieldnorm` table: the
exact total plus the histogram weighted by `id_to_fieldnorm` over all 256
buckets. -/
def compute_total_num_tokens (idToFieldnorm : Nat → Nat)
    (readers : List SegmentReaderModel) : Nat :=
  (totalNumTokensState readers).1 +
    ((List.range 256).map fun i => (totalNumTokensState readers).2 i * idToFieldnorm i).sum

/-- Fieldnorm-approximated token count of the live documents of one segment:
what the 256-bucket histogram of a single segment contributes after
weighting. -/
def liveFieldnormTokens (idToFieldnorm : Nat → Nat) (r : SegmentReaderModel) : Nat :=
  ((docIdsAlive r).map fun d => idToFieldnorm (r.fieldnormId d % 256)).sum

theorem range_map_update_sum (w c : Nat → Nat) :
    ∀ (n j : Nat), j < n →
      ((List.range n).map fun i => Function.update c j (c j + 1) i * w i).sum =
        ((List.range n).map fun i => c i * w i).sum + w j
  | 0, j, hj => absurd hj (Nat.not_lt_zero j)
  | n + 1, j, hj => by
    rw [List.range_succ, List.map_append, List.map_append, List.sum_append, List.sum_append]
    by_cases hjn : j = n
    · subst hjn
      have hinit : ((List.range j).map fun i => Function.update c j (c j + 1) i * w i) =
          ((List.range j).map fun i => c i * w i) := by
        apply List.map_congr_left
        intro i hi
        have : i ≠ j := Nat.ne_of_lt (List.mem_range.mp hi)
        rw [Function.update_noteq this]
      rw [hinit]
      simp only [List.map_cons, List.map_nil, List.sum_cons, List.sum_nil,
        Function.update_same]
      ring
    · have hjlt : j < n := Nat.lt_of_lt_of_le (Nat.lt_of_le_of_ne (Nat.le_of_lt_succ hj) hjn)
        (Nat.le_refl n)
      rw [range_map_update_sum w c n j hjlt]
      simp only [List.map_cons, List.map_nil, List.sum_cons, List.sum_nil]
      rw [Function.update_noteq (Ne.symm hjn)]
      ring

theorem foldl_histogram_weight (w f : Nat → Nat) :
    ∀ (ds : List Nat) (c : Nat → Nat),
      ((List.range 256).map fun i =>
          (ds.foldl (fun cnt d => Function.update cnt (f d % 256) (cnt (f d % 256) + 1)) c) i
            * w i).sum =
        ((List.range 256).map fun i => c i * w i).sum + (ds.map fun d => w (f d % 256)).sum
  | [], c => by simp
  | d :: ds, c => by
    rw [List.foldl_cons, List.map_cons, List.sum_cons,
      foldl_histogram_weight w f ds (Function.update c (f d % 256) (c (f d % 256) + 1))]
    rw [range_map_update_sum w c 256 (f d % 256) (Nat.mod_lt _ (by norm_num))]
    ring

theorem histogramAdd_weight (w : Nat → Nat) (r : SegmentReaderModel) (c : Nat → Nat) :
    ((List.range 256).map fun i => histogramAdd r c i * w i).sum =
      ((List.range 256).map fun i => c i * w i).sum + liveFieldnormTokens w r :=
  foldl_histogram_weight w r.fieldnormId (docIdsAlive r) c

theorem totalNumTokensState_go (w : Nat → Nat) :
    ∀ (readers : List SegmentReaderModel) (t : Nat) (c : Nat → Nat),
      (readers.foldl
          (fun st r =>
            if hasDeletes r then (st.1, histogramAdd r st.2)
            else (st.1 + r.totalNumTokens, st.2))
          (t, c)).1 =
        t + (readers.map fun r => if hasDeletes r then 0 else r.totalNumTokens).sum ∧
      ((List.range 256).map fun i =>
          (readers.foldl
              (fun st r =>
                if hasDeletes r then (st.1, histogramAdd r st.2)
                else (st.1 + r.totalNumTokens, st.2))
              (t, c)).2 i * w i).sum =
        ((List.range 256).map fun i => c i * w i).sum +
          (readers.map fun r => if hasDeletes r then liveFieldnormTokens w r else 0).sum
  | [], t, c => by simp
  | r :: readers, t, c => by
    rw [List.foldl_cons, List.map_cons, List.sum_cons, List.map_cons, List.sum_cons]
    by_cases hdel : hasDeletes r = true
    · rw [if_pos hdel, if_pos hdel, if_pos hdel]
      have ih := totalNumTokensState_go w readers t (histogramAdd r c)
      refine ⟨by rw [ih.1]; ring, ?_⟩
      rw [ih.2, histogramAdd_weight w r c]
      ring
    · rw [if_neg hdel, if_neg hdel, if_neg hdel]
      have ih := totalNumTokensState_go w readers (t + r.totalNumTokens) c
      refine ⟨by rw [ih.1]; ring, by rw [ih.2]; ring⟩

theorem sum_map_add_distrib {α : Type} (f g : α → Nat) :
    ∀ l : List α, (l.map fun x => f x + g x).sum = (l.map f).sum + (l.map g).sum
  | [] => rfl
  | x :: xs => by
    simp only [List.map_cons, List.sum_cons, sum_map_add_distrib f g xs]
    ring

/-- Claim C7: `compute_total_num_tokens` returns the sum, over input
segments, of the stored `total_num_tokens` for delete-free segments and of
the fieldnorm-histogram weighted approximation (equivalently, the sum of
`id_to_fieldnorm(fieldnorm_id(doc))` over live docs) for segments with
deletes; in particular, with no deletes anywhere it is the exact sum of the
inputs' `total_num_tokens`. -/
theorem claim_C7 (idToFieldnorm : Nat → Nat) (readers : List SegmentReaderModel) :
    compute_total_num_tokens idToFieldnorm readers =
      (readers.map fun r =>
        if hasDeletes r then liveFieldnormTokens idToFieldnorm r
        else r.totalNumTokens).sum ∧
      ((∀ r ∈ readers, hasDeletes r = false) →
        compute_total_num_tokens idToFieldnorm readers =
          (readers.map SegmentReaderModel.totalNumTokens).sum) := by
  have hgo := totalNumTokensState_go idToFieldnorm readers 0 (fun _ => 0)
  have hmain : compute_total_num_tokens idToFieldnorm readers =
      (readers.map fun r =>
        if hasDeletes r then liveFieldnormTokens idToFieldnorm r
        else r.totalNumTokens).sum := by
    unfold compute_total_num_tokens totalNumTokensState
    rw [hgo.1, hgo.2]
    have hzero : ((List.range 256).map fun i => (0 : Nat) * idToFieldnorm i).sum = 0 := by
      apply List.sum_eq_zero
      intro x hx
      rw [List.mem_map] at hx
      obtain ⟨i, _, rfl⟩ := hx
      exact Nat.zero_mul _
    rw [hzero, Nat.zero_add, Nat.zero_add]
    rw [← sum_map_add_distrib
      (fun r => if hasDeletes r then 0 else r.totalNumTokens)
      (fun r => if hasDeletes r then liveFieldnormTokens idToFieldnorm r else 0) readers]
    refine congrArg List.sum (List.map_congr_left fun r _ => ?_)
    by_cases hdel : hasDeletes r = true
    · simp [hdel]
    · simp [hdel]
  refine ⟨hmain, fun hnodel => ?_⟩
  rw [hmain]
  refine congrArg List.sum (List.map_congr_left fun r hr => ?_)
  simp [hnodel r hr]

/-- Witness for C7: on a single delete-free segment the result is exactly the
stored `total_num_tokens`. -/
theorem claim_C7_witness :
    compute_total_num_tokens (fun i => i) [smallSegment] =
      ([smallSegment].map SegmentReaderModel.totalNumTokens).sum :=
  (claim_C7 (fun i => i) [smallSegment]).2 (by decide)

/-! ## Claim C8: write_hierarchical_facet_field (merger.rs lines 574-636) -/

/-- Model of `TermOrdinalMapping::max_term_ord` (merger.rs lines 140-147):
the maximum over all segments of the per-segment maximum registered new term
ordinal, `TermOrdinal::default() = 0` when there is none. -/
def maxTermOrd (m : List (List Nat)) : Nat :=
  ((m.filterMap List.max?).max?).getD 0

/-- Bounds passed to the facet value-column serializer (merger.rs line 604):
`new_u64_fast_field_with_idx(field, 0u64, max_term_ord, 1)`. -/
def facetColumnBounds (m : List (List Nat)) : Nat × Nat :=
  (0, maxTermOrd m)

/-- The (segment ordinal, source term ordinal) accesses performed by the
facet value loop of `write_hierarchical_facet_field` (merger.rs lines
606-632), in emission order: in sorted mode each `DocIdMapping` entry
contributes the facet values of its old doc, in stacking mode each segment in
ordinal order contributes the facet values of its live docs. -/
def facetAccesses (readers : List SegmentReaderModel)
    (docIdMapping : Option (List (Nat × Nat))) : List (Nat × Nat) :=
  match docIdMapping with
  | some mapping =>
      mapping.flatMap fun e =>
        ((readers.getD e.2 default).facetVals e.1).map fun prev => (e.2, prev)
  | none =>
      readers.enum.flatMap fun p =>
        (docIdsAlive p.2).flatMap fun doc =>
          (p.2.facetVals doc).map fun prev => (p.1, prev)

/-- Values emitted to the merged facet value column (merger.rs lines 613-616
and 624-630): every accessed source ordinal translated through its segment's
`TermOrdinalMapping`. -/
def facetEmittedValues (m : List (List Nat)) (readers : List SegmentReaderModel)
    (docIdMapping : Option (List (Nat × Nat))) : List Nat :=
  (facetAccesses readers docIdMapping).map fun a => (m.getD a.1 []).getD a.2 0

theorem le_maxTermOrd_of_mem {m : List (List Nat)} {l : List Nat} {v : Nat}
    (hl : l ∈ m) (hv : v ∈ l) : v ≤ maxTermOrd m := by
  cases hM : l.max? with
  | none =>
    rw [List.max?_eq_none_iff] at hM
    subst hM
    cases hv
  | some M =>
    obtain ⟨_, hle⟩ := List.max?_eq_some_iff'.mp hM
    have hMmem : M ∈ m.filterMap List.max? := by
      rw [List.mem_filterMap]
      exact ⟨l, hl, hM⟩
    cases hT : (m.filterMap List.max?).max? with
    | none =>
      rw [List.max?_eq_none_iff] at hT
      rw [hT] at hMmem
      cases hMmem
    | some T =>
      obtain ⟨_, hleT⟩ := List.max?_eq_some_iff'.mp hT
      have hmax : maxTermOrd m = T := by
        unfold maxTermOrd
        rw [hT]
        rfl
      rw [hmax]
      exact le_trans (hle v hv) (hleT M hMmem)

/-- Claim C8 (amended): every value emitted to the merged facet value column
is the term-ordinal-mapping translation of an accessed source ordinal, is at
most `max_term_ord` (it can equal it), and is a valid ordinal of the merged
term dictionary whenever every mapping entry is; the value column is opened
with bounds `(0, max_term_ord)`. -/
theorem claim_C8 (m : List (List Nat)) (readers : List SegmentReaderModel)
    (docIdMapping : Option (List (Nat × Nat))) (numMergedTerms : Nat)
    (hacc : ∀ a ∈ facetAccesses readers docIdMapping,
      a.1 < m.length ∧ a.2 < (m.getD a.1 []).length)
    (hvalid : ∀ l ∈ m, ∀ o ∈ l, o < numMergedTerms) :
    facetColumnBounds m = (0, maxTermOrd m) ∧
      ∀ v ∈ facetEmittedValues m readers docIdMapping,
        (∃ a ∈ facetAccesses readers docIdMapping, v = (m.getD a.1 []).getD a.2 0) ∧
          v ≤ maxTermOrd m ∧ v < numMergedTerms := by
  refine ⟨rfl, fun v hv => ?_⟩
  rw [facetEmittedValues, List.mem_map] at hv
  obtain ⟨a, ha, rfl⟩ := hv
  obtain ⟨hs, hi⟩ := hacc a ha
  have hlmem : m.getD a.1 [] ∈ m := by
    rw [List.getD_eq_getElem?_getD, List.getElem?_eq_getElem hs, Option.getD_some]
    exact List.getElem_mem hs
  have hvmem : (m.getD a.1 []).getD a.2 0 ∈ m.getD a.1 [] := by
    rw [List.getD_eq_getElem?_getD (m.getD a.1 []) a.2, List.getElem?_eq_getElem hi,
      Option.getD_some]
    exact List.getElem_mem hi
  exact ⟨⟨a, ha, rfl⟩, le_maxTermOrd_of_mem hlmem hvmem, hvalid _ hlmem _ hvmem⟩

/-- Concrete one-doc segment whose facet column stores source ordinal 0. -/
def facetCexReader : SegmentReaderModel :=
  { maxDoc := 1
    deleteBitset := none
    fastVal := fun _ => 0
    minValue := 0
    maxValue := 0
    totalNumTokens := 0
    fieldnormId := fun _ => 0
    facetVals := fun _ => [0] }

/-- Counterexample for C8 as stated: with the term-ordinal mapping `[[2]]`,
the single emitted value is `2 = max_term_ord`, so the emitted values are not
all *strictly* less than `max_term_ord`. -/
theorem claim_C8_counterexample :
    ¬ ∀ v ∈ facetEmittedValues [[2]] [facetCexReader] none, v < maxTermOrd [[2]] := by
  decide

/-- Witness for C8 on a two-segment stacking-mode merge. -/
theorem claim_C8_witness :
    facetColumnBounds [[1, 2], [0]] = (0, maxTermOrd [[1, 2], [0]]) ∧
      ((1 : Nat) ≤ maxTermOrd [[1, 2], [0]] ∧ (1 : Nat) < 3) :=
  have h := claim_C8 [[1, 2], [0]] [facetCexReader, facetCexReader] none 3
    (by decide) (by decide)
  ⟨h.1, (h.2 1 (by decide)).2⟩

/-! ## Claim C9: write_storable_fields in sorted mode (merger.rs lines 985-1013) -/

/-- Loop of `write_storable_fields` in sorted mode (merger.rs lines
1000-1013): for each doc-id-mapping entry `(old_doc_id, seg_ord)`, pull the
next raw payload from that segment's stored-document iterator and append it
to the store; a `None` from the iterator aborts with `DataCorruption` naming
the old doc id. -/
def writeStorableSortedGo (iters : List (List Nat)) (out : List Nat) :
    List (Nat × Nat) → Except MergeError (List Nat)
  | [] => Except.ok out
  | e :: rest =>
    match iters.getD e.2 [] with
    | [] => Except.error (MergeError.dataCorruption e.1)
    | b :: bs => writeStorableSortedGo (iters.set e.2 bs) (out ++ [b]) rest

/-- Model of the sorted branch of `write_storable_fields`: `payloads` holds,
per segment, the stream of raw live-document payloads produced by
`iter_raw`, consumed in doc-id-mapping order. -/
def write_storable_fields_sorted (payloads : List (List Nat))
    (mapping : List (Nat × Nat)) : Except MergeError (List Nat) :=
  writeStorableSortedGo payloads [] mapping

/-- Intended output of the sorted stored-document merge: the `k`-th written
payload is the `rank`-th payload of the `k`-th mapping entry's segment, where
`rank` counts the earlier mapping entries of the same segment. -/
def rankedStoredOutput (payloads : List (List Nat)) (mapping : List (Nat × Nat)) : List Nat :=
  (List.range mapping.length).map fun k =>
    (payloads.getD (mapping.getD k (0, 0)).2 []).getD
      ((mapping.take k).countP fun e => e.2 == (mapping.getD k (0, 0)).2) 0

theorem getD_set (l : List (List Nat)) (j : Nat) (x : List Nat) (s : Nat) :
    (l.set j x).getD s [] = if j = s ∧ j < l.length then x else l.getD s [] := by
  rw [List.getD_eq_getElem?_getD, List.getElem?_set]
  by_cases hjs : j = s
  · by_cases hj : j < l.length
    · rw [if_pos hjs, if_pos hj, if_pos ⟨hjs, hj⟩]
      rfl
    · rw [if_pos hjs, if_neg hj, if_neg fun h => hj h.2]
      rw [List.getD_eq_getElem?_getD, List.getElem?_eq_none (by omega)]
  · rw [if_neg hjs, if_neg fun h => hjs h.1, List.getD_eq_getElem?_getD]

theorem rankedStoredOutput_cons (payloads : List (List Nat)) (e : Nat × Nat)
    (rest : List (Nat × Nat)) :
    rankedStoredOutput payloads (e :: rest) =
      (payloads.getD e.2 []).getD 0 0 ::
        rankedStoredOutput (payloads.set e.2 ((payloads.getD e.2 []).drop 1)) rest := by
  unfold rankedStoredOutput
  rw [List.length_cons, List.range_succ_eq_map, List.map_cons, List.map_map]
  congr 1
  apply List.map_congr_left
  intro k _
  simp only [Function.comp_apply, List.getD_cons_succ, List.take_succ_cons,
    List.countP_cons]
  rw [getD_set]
  by_cases hse : e.2 = (rest.getD k (0, 0)).2
  · have hbeq : (e.2 == (rest.getD k (0, 0)).2) = true := beq_iff_eq.mpr hse
    rw [hbeq, if_pos rfl]
    by_cases hrange : e.2 < payloads.length
    · rw [if_pos (And.intro hse hrange), ← hse]
      rw [List.getD_eq_getElem?_getD (payloads.getD e.2 []),
        List.getD_eq_getElem?_getD ((payloads.getD e.2 []).drop 1), List.getElem?_drop]
      simp [Nat.add_comm]
    · rw [if_neg fun h => hrange h.2, ← hse]
      have hout : payloads.getD e.2 [] = [] := by
        rw [List.getD_eq_getElem?_getD, List.getElem?_eq_none (by omega)]
        rfl
      rw [hout]
      simp
  · have hbeq : (e.2 == (rest.getD k (0, 0)).2) = false := beq_eq_false_iff_ne.mpr hse
    rw [hbeq, if_neg Bool.false_ne_true, Nat.add_zero, if_neg fun h => hse h.1]

theorem writeStorableSortedGo_spec :
    ∀ (mapping : List (Nat × Nat)) (iters : List (List Nat)) (out : List Nat),
      (∀ e ∈ mapping, e.2 < iters.length) →
      ((∀ s, s < iters.length →
          (mapping.countP fun x => x.2 == s) ≤ (iters.getD s []).length) →
        writeStorableSortedGo iters out mapping =
          Except.ok (out ++ rankedStoredOutput iters mapping)) ∧
      ((¬ ∀ s, s < iters.length →
          (mapping.countP fun x => x.2 == s) ≤ (iters.getD s []).length) →
        ∃ d, writeStorableSortedGo iters out mapping =
          Except.error (MergeError.dataCorruption d))
  | [], iters, out, _ => by
    constructor
    · intro _
      simp [writeStorableSortedGo, rankedStoredOutput]
    · intro hn
      exact absurd (fun s _ => by simp) hn
  | e :: rest, iters, out, h => by
    have he2 : e.2 < iters.length := h e (List.mem_cons_self e rest)
    cases hit : iters.getD e.2 [] with
    | nil =>
      have hgo : writeStorableSortedGo iters out (e :: rest) =
          Except.error (MergeError.dataCorruption e.1) := by
        simp only [writeStorableSortedGo]
        rw [hit]
      constructor
      · intro hcond
        exfalso
        have hc := hcond e.2 he2
        rw [hit, List.length_nil] at hc
        have hpos : 0 < ((e :: rest).countP fun x => x.2 == e.2) := by
          rw [List.countP_cons, beq_self_eq_true, if_pos rfl]
          omega
        omega
      · intro _
        exact ⟨e.1, hgo⟩
    | cons b bs =>
      have hgo : writeStorableSortedGo iters out (e :: rest) =
          writeStorableSortedGo (iters.set e.2 bs) (out ++ [b]) rest := by
        simp only [writeStorableSortedGo]
        rw [hit]
      have hrange : ∀ x ∈ rest, x.2 < (iters.set e.2 bs).length := by
        intro x hx
        rw [List.length_set]
        exact h x (List.mem_cons_of_mem e hx)
      have hrec := writeStorableSortedGo_spec rest (iters.set e.2 bs) (out ++ [b]) hrange
      have hpoint : ∀ s, s < iters.length →
          ((((e :: rest).countP fun x => x.2 == s) ≤ (iters.getD s []).length) ↔
            ((rest.countP fun x => x.2 == s) ≤ ((iters.set e.2 bs).getD s []).length)) := by
        intro s _
        rw [List.countP_cons, getD_set]
        by_cases hse : e.2 = s
        · cases hse
          rw [if_pos (And.intro rfl he2), hit, beq_self_eq_true, if_pos rfl,
            List.length_cons]
          omega
        · have hbeq : (e.2 == s) = false := beq_eq_false_iff_ne.mpr hse
          rw [hbeq, if_neg Bool.false_ne_true, if_neg fun h => hse h.1]
          omega
      have hcondiff :
          (∀ s, s < iters.length →
              ((e :: rest).countP fun x => x.2 == s) ≤ (iters.getD s []).length) ↔
            (∀ s, s < (iters.set e.2 bs).length →
              (rest.countP fun x => x.2 == s) ≤ ((iters.set e.2 bs).getD s []).length) := by
        rw [List.length_set]
        constructor
        · intro hc s hs
          exact (hpoint s hs).mp (hc s hs)
        · intro hc s hs
          exact (hpoint s hs).mpr (hc s hs)
      constructor
      · intro hcond
        rw [hgo, hrec.1 (hcondiff.mp hcond)]
        rw [rankedStoredOutput_cons, hit]
        simp [List.append_assoc]
      · intro hncond
        rw [hgo]
        exact hrec.2 fun hc => hncond (hcondiff.mpr hc)

/-- Claim C9: in sorted mode `write_storable_fields` processes the doc-id
mapping in order, writing for each entry the next raw payload of its source
segment (so the `k`-th written payload is the `rank`-th live payload of that
segment); when some segment's payload iterator is exhausted before its
mapping entries are, it fails with a `DataCorruption` error instead of
writing a short store. -/
theorem claim_C9 (payloads : List (List Nat)) (mapping : List (Nat × Nat))
    (hrange : ∀ e ∈ mapping, e.2 < payloads.length) :
    ((∀ s, s < payloads.length →
        (mapping.countP fun x => x.2 == s) ≤ (payloads.getD s []).length) →
      write_storable_fields_sorted payloads mapping =
        Except.ok (rankedStoredOutput payloads mapping)) ∧
      ((¬ ∀ s, s < payloads.length →
          (mapping.countP fun x => x.2 == s) ≤ (payloads.getD s []).length) →
        ∃ d, write_storable_fields_sorted payloads mapping =
          Except.error (MergeError.dataCorruption d)) := by
  have h := writeStorableSortedGo_spec mapping payloads [] hrange
  constructor
  · intro hc
    rw [write_storable_fields_sorted, h.1 hc, List.nil_append]
  · intro hn
    exact h.2 hn

/-- Witness for C9: payload streams `[[10, 11], [20]]` merged through the
doc-id mapping `[(0,0), (5,1), (7,0)]` produce the store `[10, 20, 11]`. -/
theorem claim_C9_witness :
    write_storable_fields_sorted [[10, 11], [20]] [(0, 0), (5, 1), (7, 0)] =
      Except.ok (rankedStoredOutput [[10, 11], [20]] [(0, 0), (5, 1), (7, 0)]) :=
  (claim_C9 [[10, 11], [20]] [(0, 0), (5, 1), (7, 0)] (by decide)).1 (by decide)

/-! ## Claim C2: generate_doc_id_mapping (merger.rs lines 447-491)

The k-way merge primitive `itertools::kmerge_by` is an external crate and its
source is not part of this repository; following the specification ("a
generic merger over comparable keys with stable tie-breaking on input
index"), it is modelled as the fold of a stable binary merge over the input
lists: an element of a later list is emitted before the pending head of an
earlier list only when the comparator says it is strictly smaller. -/

/-- Modelled from the spec: `itertools::kmerge_by` with comparator `lt`.
Each binary step is the stable `List.merge` that takes from the second list
only when its head is strictly smaller under `lt`. -/
def kmergeBy {α : Type} (lt : α → α → Bool) (ls : List (List α)) : List α :=
  ls.foldr (fun l acc => l.merge acc fun a b => !(lt b a)) []

/-- The k-way merge specialised to an integer key, used to reason uniformly
about the ascending and descending directions. -/
def kmergeLe {α : Type} (ik : α → ℤ) (ls : List (List α)) : List α :=
  ls.foldr (fun l acc => l.merge acc fun a b => decide (ik a ≤ ik b)) []

theorem merge_pairwise_tie {α : Type} (ik : α → ℤ) (S : α → α → Prop) :
    ∀ (xs ys : List α),
      xs.Pairwise (fun a b => ik a ≤ ik b) →
      ys.Pairwise (fun a b => ik a ≤ ik b) →
      xs.Pairwise (fun a b => ik a = ik b → S a b) →
      ys.Pairwise (fun a b => ik a = ik b → S a b) →
      (∀ x ∈ xs, ∀ y ∈ ys, ik x = ik y → S x y) →
      (xs.merge ys fun a b => decide (ik a ≤ ik b)).Pairwise
        (fun a b => ik a = ik b → S a b)
  | [], ys, _, _, _, hyT, _ => by simpa [List.nil_merge] using hyT
  | x :: xs, [], _, _, hxT, _, _ => by simpa [List.merge_right] using hxT
  | x :: xs, y :: ys, hxle, hyle, hxT, hyT, hcross => by
    rw [List.cons_merge_cons]
    by_cases hc : ik x ≤ ik y
    · rw [if_pos (decide_eq_true hc)]
      refine List.pairwise_cons.mpr ⟨?_, ?_⟩
      · intro z hz
        rw [List.mem_merge] at hz
        rcases hz with hz | hz
        · exact (List.pairwise_cons.mp hxT).1 z hz
        · exact hcross x (List.mem_cons_self x xs) z hz
      · exact merge_pairwise_tie ik S xs (y :: ys)
          (List.pairwise_cons.mp hxle).2 hyle
          (List.pairwise_cons.mp hxT).2 hyT
          (fun u hu v hv => hcross u (List.mem_cons_of_mem x hu) v hv)
    · have hyx : ik y < ik x := by omega
      have hcb : (decide (ik x ≤ ik y)) = false := decide_eq_false hc
      rw [hcb, if_neg Bool.false_ne_true]
      refine List.pairwise_cons.mpr ⟨?_, ?_⟩
      · intro z hz heq
        rw [List.mem_merge] at hz
        rcases hz with hz | hz
        · exfalso
          have hxz : ik x ≤ ik z := by
            rcases List.mem_cons.mp hz with rfl | hz
            · exact le_refl _
            · exact (List.pairwise_cons.mp hxle).1 z hz
          omega
        · exact (List.pairwise_cons.mp hyT).1 z hz heq
      · exact merge_pairwise_tie ik S (x :: xs) ys
          hxle (List.pairwise_cons.mp hyle).2
          hxT (List.pairwise_cons.mp hyT).2
          (fun u hu v hv => hcross u hu v (List.mem_cons_of_mem y hv))
termination_by xs ys => xs.length + ys.length

theorem kmergeLe_perm {α : Type} (ik : α → ℤ) :
    ∀ ls : List (List α), (kmergeLe ik ls).Perm ls.flatten
  | [] => List.Perm.refl _
  | l :: ls => by
    show (l.merge (kmergeLe ik ls) fun a b => decide (ik a ≤ ik b)).Perm (l :: ls).flatten
    rw [List.flatten_cons]
    exact (List.merge_perm_append _).trans ((kmergeLe_perm ik ls).append_left l)

theorem kmergeLe_sorted {α : Type} (ik : α → ℤ) :
    ∀ ls : List (List α), (∀ l ∈ ls, l.Pairwise fun a b => ik a ≤ ik b) →
      (kmergeLe ik ls).Pairwise fun a b => ik a ≤ ik b
  | [], _ => List.Pairwise.nil
  | l :: ls, h => by
    show (l.merge (kmergeLe ik ls) fun a b => decide (ik a ≤ ik b)).Pairwise _
    have htrans : ∀ a b c : α, (decide (ik a ≤ ik b)) = true →
        (decide (ik b ≤ ik c)) = true → (decide (ik a ≤ ik c)) = true := by
      intro a b c h1 h2
      rw [decide_eq_true_eq] at h1 h2
      exact decide_eq_true (le_trans h1 h2)
    have htotal : ∀ a b : α, (decide (ik a ≤ ik b) || decide (ik b ≤ ik a)) = true := by
      intro a b
      rcases le_total (ik a) (ik b) with hab | hba
      · rw [decide_eq_true hab, Bool.true_or]
      · rw [decide_eq_true hba, Bool.or_true]
    have hmerge := List.sorted_merge htrans htotal l (kmergeLe ik ls)
      ((h l (List.mem_cons_self l ls)).imp fun hab => decide_eq_true hab)
      ((kmergeLe_sorted ik ls fun l hl => h l (List.mem_cons_of_mem _ hl)).imp
        fun hab => decide_eq_true hab)
    exact hmerge.imp fun hab => of_decide_eq_true hab

theorem kmergeLe_pairwise_tie {α : Type} (ik : α → ℤ) (S : α → α → Prop) :
    ∀ ls : List (List α),
      (∀ l ∈ ls, l.Pairwise fun a b => ik a ≤ ik b) →
      (∀ l ∈ ls, l.Pairwise fun a b => ik a = ik b → S a b) →
      ls.Pairwise (fun l₁ l₂ => ∀ x ∈ l₁, ∀ y ∈ l₂, S x y) →
      (kmergeLe ik ls).Pairwise fun a b => ik a = ik b → S a b
  | [], _, _, _ => List.Pairwise.nil
  | l :: ls, hsort, htie, hcross => by
    show (l.merge (kmergeLe ik ls) fun a b => decide (ik a ≤ ik b)).Pairwise _
    refine merge_pairwise_tie ik S l (kmergeLe ik ls)
      (hsort l (List.mem_cons_self l ls))
      (kmergeLe_sorted ik ls fun u hu => hsort u (List.mem_cons_of_mem _ hu))
      (htie l (List.mem_cons_self l ls))
      (kmergeLe_pairwise_tie ik S ls
        (fun u hu => hsort u (List.mem_cons_of_mem _ hu))
        (fun u hu => htie u (List.mem_cons_of_mem _ hu))
        (List.pairwise_cons.mp hcross).2)
      ?_
    intro x hx y hy _
    have hymem : y ∈ ls.flatten := ((kmergeLe_perm ik ls).mem_iff).mp hy
    rw [List.mem_flatten] at hymem
    obtain ⟨u, hu, hyu⟩ := hymem
    exact (List.pairwise_cons.mp hcross).1 u hu x hx y hyu

/-- Sort-field value of a doc-id-mapping entry `(doc_id, segment_ordinal)`:
merger.rs lines 480-481 read `a.2.get(a.0)` where `a.2` is the entry's
segment sort-field accessor. -/
def docIdMappingKey (readers : List SegmentReaderModel) (e : Nat × Nat) : Nat :=
  (readers.getD e.2 default).fastVal e.1

/-- Comparator of the doc-id k-way merge (merger.rs lines 479-487):
`val1 < val2` for ascending order, `val1 > val2` for descending. -/
def docIdMappingLt (order : Order) (readers : List SegmentReaderModel)
    (a b : Nat × Nat) : Bool :=
  if order = Order.asc then
    decide (docIdMappingKey readers a < docIdMappingKey readers b)
  else
    decide (docIdMappingKey readers b < docIdMappingKey readers a)

/-- Model of `IndexMerger::generate_doc_id_mapping` (merger.rs lines
447-491): the k-way merge, over all readers in ordinal order, of each
reader's live doc ids tagged with the reader's ordinal, keyed by the
sort-field value in the configured direction.  The position in the result is
the new doc id. -/
def generate_doc_id_mapping (order : Order) (readers : List SegmentReaderModel) :
    List (Nat × Nat) :=
  kmergeBy (docIdMappingLt order readers)
    (readers.enum.map fun p => (docIdsAlive p.2).map fun d => (d, p.1))

/-- Direction-adjusted integer key: both sort directions become ascending
order on `dirKey`. -/
def dirKey (order : Order) (readers : List SegmentReaderModel) (e : Nat × Nat) : ℤ :=
  match order with
  | .asc => (docIdMappingKey readers e : ℤ)
  | .desc => -(docIdMappingKey readers e : ℤ)

/-- Direction-adjusted comparison on raw sort-field values. -/
def dirNatLe (order : Order) (x y : Nat) : Prop :=
  match order with
  | .asc => x ≤ y
  | .desc => y ≤ x

instance dirNatLe.decidable (order : Order) (x y : Nat) : Decidable (dirNatLe order x y) :=
  match order with
  | Order.asc => inferInstanceAs (Decidable (x ≤ y))
  | Order.desc => inferInstanceAs (Decidable (y ≤ x))

theorem dirKey_le_iff (order : Order) (readers : List SegmentReaderModel) (a b : Nat × Nat) :
    (dirKey order readers a ≤ dirKey order readers b ↔
      dirNatLe order (docIdMappingKey readers a) (docIdMappingKey readers b)) := by
  cases order <;> simp [dirKey, dirNatLe]

theorem dirKey_eq_iff (order : Order) (readers : List SegmentReaderModel) (a b : Nat × Nat) :
    (dirKey order readers a = dirKey order readers b ↔
      docIdMappingKey readers a = docIdMappingKey readers b) := by
  cases order <;> simp [dirKey]

theorem generate_eq_kmergeLe (order : Order) (readers : List SegmentReaderModel) :
    generate_doc_id_mapping order readers =
      kmergeLe (dirKey order readers)
        (readers.enum.map fun p => (docIdsAlive p.2).map fun d => (d, p.1)) := by
  unfold generate_doc_id_mapping kmergeBy kmergeLe
  congr 1
  funext l acc
  congr 1
  funext a b
  cases order with
  | asc =>
    show (!decide (docIdMappingKey readers b < docIdMappingKey readers a)) =
      decide ((docIdMappingKey readers a : ℤ) ≤ (docIdMappingKey readers b : ℤ))
    rw [← decide_not]
    apply decide_eq_decide.mpr
    omega
  | desc =>
    show (!decide (docIdMappingKey readers a < docIdMappingKey readers b)) =
      decide (-(docIdMappingKey readers a : ℤ) ≤ -(docIdMappingKey readers b : ℤ))
    rw [← decide_not]
    apply decide_eq_decide.mpr
    omega

theorem getD_of_mem_enum {α : Type} {l : List α} {i : Nat} {x : α}
    (hp : (i, x) ∈ l.enum) (d : α) : l.getD i d = x := by
  have h := List.mem_enumFrom (show (i, x) ∈ List.enumFrom 0 l from hp)
  obtain ⟨_, hlt, heq⟩ := h
  simp only [Nat.sub_zero] at heq
  rw [List.getD_eq_getElem?_getD, List.getElem?_eq_getElem (by omega), Option.getD_some]
  exact heq.symm

theorem enumFrom_pairwise_fst {α : Type} (l : List α) :
    ∀ n, (List.enumFrom n l).Pairwise fun a b => a.1 < b.1 := by
  induction l with
  | nil =>
    intro n
    exact List.Pairwise.nil
  | cons a as ih =>
    intro n
    rw [List.enumFrom_cons]
    refine List.pairwise_cons.mpr ⟨?_, ih (n + 1)⟩
    intro b hb
    obtain ⟨i, x⟩ := b
    have := (List.mem_enumFrom hb).1
    show n < i
    omega

theorem enum_pairwise_fst {α : Type} (l : List α) :
    l.enum.Pairwise fun a b => a.1 < b.1 :=
  enumFrom_pairwise_fst l 0

/-- Claim C2: when a doc-id mapping is built, `generate_doc_id_mapping`
produces the k-way merge of the per-segment live doc-id sequences keyed by
the sort-field value in the configured direction — a permutation of all
live `(old doc id, segment ordinal)` pairs, ordered by sort-field value —
and the merge is stable on equal sort-field values: the entry from the
earlier segment ordinal comes first, and within one segment the lower old
doc id comes first.  The hypothesis states that each segment is internally
sorted on the sort field, the precondition of a sorted index. -/
theorem claim_C2 (order : Order) (readers : List SegmentReaderModel)
    (hsorted : ∀ p ∈ readers.enum, (docIdsAlive p.2).Pairwise fun d₁ d₂ =>
      dirNatLe order (p.2.fastVal d₁) (p.2.fastVal d₂)) :
    (generate_doc_id_mapping order readers).Perm
        (readers.enum.flatMap fun p => (docIdsAlive p.2).map fun d => (d, p.1)) ∧
      (generate_doc_id_mapping order readers).Pairwise (fun a b =>
        dirNatLe order (docIdMappingKey readers a) (docIdMappingKey readers b)) ∧
      (generate_doc_id_mapping order readers).Pairwise (fun a b =>
        docIdMappingKey readers a = docIdMappingKey readers b →
          a.2 < b.2 ∨ (a.2 = b.2 ∧ a.1 < b.1)) := by
  have hkey : ∀ p ∈ readers.enum, ∀ d : Nat,
      docIdMappingKey readers (d, p.1) = p.2.fastVal d := by
    intro p hp d
    obtain ⟨i, r⟩ := p
    unfold docIdMappingKey
    rw [getD_of_mem_enum hp]
  have hsort_ls : ∀ l ∈ readers.enum.map fun p => (docIdsAlive p.2).map fun d => (d, p.1),
      l.Pairwise fun a b => dirKey order readers a ≤ dirKey order readers b := by
    intro l hl
    rw [List.mem_map] at hl
    obtain ⟨p, hp, rfl⟩ := hl
    rw [List.pairwise_map]
    refine (hsorted p hp).imp ?_
    intro d₁ d₂ h
    rw [dirKey_le_iff, hkey p hp d₁, hkey p hp d₂]
    exact h
  have htie_ls : ∀ l ∈ readers.enum.map fun p => (docIdsAlive p.2).map fun d => (d, p.1),
      l.Pairwise fun a b => dirKey order readers a = dirKey order readers b →
        a.2 < b.2 ∨ (a.2 = b.2 ∧ a.1 < b.1) := by
    intro l hl
    rw [List.mem_map] at hl
    obtain ⟨p, hp, rfl⟩ := hl
    rw [List.pairwise_map]
    refine (docIdsAlive_pairwise_lt p.2).imp ?_
    intro d₁ d₂ h _
    exact Or.inr ⟨rfl, h⟩
  have hcross_ls : (readers.enum.map fun p => (docIdsAlive p.2).map fun d => (d, p.1)).Pairwise
      fun l₁ l₂ => ∀ x ∈ l₁, ∀ y ∈ l₂,
        x.2 < y.2 ∨ (x.2 = y.2 ∧ x.1 < y.1) := by
    rw [List.pairwise_map]
    refine (enum_pairwise_fst readers).imp ?_
    intro p q hpq x hx y hy
    rw [List.mem_map] at hx hy
    obtain ⟨d₁, _, rfl⟩ := hx
    obtain ⟨d₂, _, rfl⟩ := hy
    exact Or.inl hpq
  rw [generate_eq_kmergeLe]
  refine ⟨?_, ?_, ?_⟩
  · have hperm := kmergeLe_perm (dirKey order readers)
      (readers.enum.map fun p => (docIdsAlive p.2).map fun d => (d, p.1))
    exact hperm
  · exact (kmergeLe_sorted (dirKey order readers) _ hsort_ls).imp
      fun h => (dirKey_le_iff order readers _ _).mp h
  · refine (kmergeLe_pairwise_tie (dirKey order readers) _ _ hsort_ls htie_ls hcross_ls).imp ?_
    intro a b h heq
    exact h ((dirKey_eq_iff order readers a b).mpr heq)

/-- Concrete segment with sort-field values `1, 3`. -/
def mapSegA : SegmentReaderModel :=
  { maxDoc := 2
    deleteBitset := none
    fastVal := fun d => 2 * d + 1
    minValue := 1
    maxValue := 3
    totalNumTokens := 0
    fieldnormId := fun _ => 0
    facetVals := fun _ => [] }

/-- Concrete segment with sort-field values `2, 4`, interleaving `mapSegA`. -/
def mapSegB : SegmentReaderModel :=
  { maxDoc := 2
    deleteBitset := none
    fastVal := fun d => 2 * d + 2
    minValue := 2
    maxValue := 4
    totalNumTokens := 0
    fieldnormId := fun _ => 0
    facetVals := fun _ => [] }

/-- Witness for C2 on two interleaving internally-sorted segments. -/
theorem claim_C2_witness :
    (generate_doc_id_mapping Order.asc [mapSegA, mapSegB]).Perm
        ([mapSegA, mapSegB].enum.flatMap fun p => (docIdsAlive p.2).map fun d => (d, p.1)) :=
  (claim_C2 Order.asc [mapSegA, mapSegB] (by decide)).1

/-! ## Claim C3: posting emission monotonicity in write_postings_for_field
(merger.rs lines 802-956) -/

/-- Inner loop of the stacking-mode `merged_doc_id_map` construction
(merger.rs lines 823-832): scan the doc ids of one segment in order,
assigning the running new doc id to live docs and `None` to deleted ones;
returns the segment-local map together with the updated counter. -/
def segLocalMapAux (r : SegmentReaderModel) : List Nat → Nat → List (Option Nat) × Nat
  | [], c => ([], c)
  | d :: ds, c =>
    if isDeleted r d then
      let rest := segLocalMapAux r ds c
      (none :: rest.1, rest.2)
    else
      let rest := segLocalMapAux r ds (c + 1)
      (some c :: rest.1, rest.2)

/-- Stacking-mode `merged_doc_id_map` (merger.rs lines 822-835): segment
`i`'s live docs receive new doc ids immediately after segment `i-1`'s
block. -/
def stackedDocIdMap : List SegmentReaderModel → Nat → List (List (Option Nat))
  | [], _ => []
  | r :: rest, c =>
    let seg := segLocalMapAux r (List.range r.maxDoc) c
    seg.1 :: stackedDocIdMap rest seg.2

/-- Two doc-id-map entries are ordered when their assigned new doc ids are
strictly increasing (vacuously for deleted entries). -/
def OptLt (o₁ o₂ : Option Nat) : Prop :=
  ∀ v₁ v₂, o₁ = some v₁ → o₂ = some v₂ → v₁ < v₂

/-- Looking up a remapped doc id: `merged_doc_id_map[segment_ord][doc]`
(merger.rs line 919). -/
def lookupOldToNew (oldToNew : List (List (Option Nat))) (ord doc : Nat) : Option Nat :=
  (oldToNew.getD ord []).getD doc none

theorem segLocalMapAux_snd_le (r : SegmentReaderModel) :
    ∀ (ds : List Nat) (c : Nat), c ≤ (segLocalMapAux r ds c).2
  | [], c => le_refl c
  | d :: ds, c => by
    by_cases hd : isDeleted r d
    · simp only [segLocalMapAux, if_pos hd]
      exact segLocalMapAux_snd_le r ds c
    · simp only [segLocalMapAux, if_neg hd]
      exact le_trans (by omega) (segLocalMapAux_snd_le r ds (c + 1))

theorem segLocalMapAux_bounds (r : SegmentReaderModel) :
    ∀ (ds : List Nat) (c : Nat) (v : Nat), some v ∈ (segLocalMapAux r ds c).1 →
      c ≤ v ∧ v < (segLocalMapAux r ds c).2
  | [], c, v => by
    intro h
    simp [segLocalMapAux] at h
  | d :: ds, c, v => by
    by_cases hd : isDeleted r d
    · simp only [segLocalMapAux, if_pos hd]
      intro h
      rcases List.mem_cons.mp h with h | h
      · exact Option.noConfusion h
      · exact segLocalMapAux_bounds r ds c v h
    · simp only [segLocalMapAux, if_neg hd]
      intro h
      rcases List.mem_cons.mp h with h | h
      · have hv : v = c := Option.some.inj h
        subst hv
        have := segLocalMapAux_snd_le r ds (v + 1)
        exact ⟨le_refl v, by omega⟩
      · have := segLocalMapAux_bounds r ds (c + 1) v h
        exact ⟨by omega, this.2⟩

theorem segLocalMapAux_pairwise (r : SegmentReaderModel) :
    ∀ (ds : List Nat) (c : Nat), (segLocalMapAux r ds c).1.Pairwise OptLt
  | [], _ => List.Pairwise.nil
  | d :: ds, c => by
    by_cases hd : isDeleted r d
    · simp only [segLocalMapAux, if_pos hd]
      refine List.pairwise_cons.mpr ⟨?_, segLocalMapAux_pairwise r ds c⟩
      intro o _ v₁ v₂ h₁ _
      exact Option.noConfusion h₁
    · simp only [segLocalMapAux, if_neg hd]
      refine List.pairwise_cons.mpr ⟨?_, segLocalMapAux_pairwise r ds (c + 1)⟩
      intro o ho v₁ v₂ h₁ h₂
      have hv : c = v₁ := Option.some.inj h₁
      subst hv
      rw [h₂] at ho
      have := (segLocalMapAux_bounds r ds (c + 1) v₂ ho).1
      omega

theorem stackedDocIdMap_lower :
    ∀ (readers : List SegmentReaderModel) (c : Nat), ∀ seg ∈ stackedDocIdMap readers c,
      ∀ v, some v ∈ seg → c ≤ v
  | [], _ => by
    intro seg h
    simp [stackedDocIdMap] at h
  | r :: rest, c => by
    intro seg hseg v hv
    simp only [stackedDocIdMap] at hseg
    rcases List.mem_cons.mp hseg with rfl | hseg
    · exact (segLocalMapAux_bounds r _ c v hv).1
    · have h1 := stackedDocIdMap_lower rest _ seg hseg v hv
      have h2 := segLocalMapAux_snd_le r (List.range r.maxDoc) c
      omega

theorem stackedDocIdMap_cross :
    ∀ (readers : List SegmentReaderModel) (c : Nat),
      (stackedDocIdMap readers c).Pairwise fun s₁ s₂ =>
        ∀ v₁ v₂, some v₁ ∈ s₁ → some v₂ ∈ s₂ → v₁ < v₂
  | [], _ => List.Pairwise.nil
  | r :: rest, c => by
    simp only [stackedDocIdMap]
    refine List.pairwise_cons.mpr ⟨?_, stackedDocIdMap_cross rest _⟩
    intro seg hseg v₁ v₂ h₁ h₂
    have hv₁ := (segLocalMapAux_bounds r (List.range r.maxDoc) c v₁ h₁).2
    have hv₂ := stackedDocIdMap_lower rest _ seg hseg v₂ h₂
    omega

theorem stackedDocIdMap_inner :
    ∀ (readers : List SegmentReaderModel) (c : Nat),
      ∀ seg ∈ stackedDocIdMap readers c, seg.Pairwise OptLt
  | [], _ => by
    intro seg h
    simp [stackedDocIdMap] at h
  | r :: rest, c => by
    intro seg hseg
    simp only [stackedDocIdMap] at hseg
    rcases List.mem_cons.mp hseg with rfl | hseg
    · exact segLocalMapAux_pairwise r _ c
    · exact stackedDocIdMap_inner rest _ seg hseg

theorem lookup_lt_of_inner (g : List (List (Option Nat)))
    (hinner : ∀ seg ∈ g, seg.Pairwise OptLt)
    (ord d₁ d₂ v₁ v₂ : Nat) (hd : d₁ < d₂)
    (h₁ : lookupOldToNew g ord d₁ = some v₁)
    (h₂ : lookupOldToNew g ord d₂ = some v₂) : v₁ < v₂ := by
  unfold lookupOldToNew at h₁ h₂
  rcases lt_or_ge ord g.length with hord | hord
  · have hrow : g.getD ord [] = g[ord] := by
      rw [List.getD_eq_getElem?_getD g ord, List.getElem?_eq_getElem hord, Option.getD_some]
    rw [hrow] at h₁ h₂
    have hidx : ∀ i v, g[ord].getD i none = some v →
        ∃ hi : i < g[ord].length, g[ord][i] = some v := by
      intro i v h
      rcases lt_or_ge i g[ord].length with hi | hi
      · rw [List.getD_eq_getElem?_getD, List.getElem?_eq_getElem hi, Option.getD_some] at h
        exact ⟨hi, h⟩
      · rw [List.getD_eq_getElem?_getD, List.getElem?_eq_none (by omega)] at h
        exact Option.noConfusion h
    obtain ⟨hi₁, e₁⟩ := hidx d₁ v₁ h₁
    obtain ⟨hi₂, e₂⟩ := hidx d₂ v₂ h₂
    have hp := hinner g[ord] (List.getElem_mem hord)
    rw [List.pairwise_iff_getElem] at hp
    exact hp d₁ d₂ hi₁ hi₂ hd v₁ v₂ e₁ e₂
  · rw [List.getD_eq_getElem?_getD g ord, List.getElem?_eq_none (by omega)] at h₁
    exact Option.noConfusion h₁

theorem lookup_mem (g : List (List (Option Nat))) (ord d v : Nat)
    (h : lookupOldToNew g ord d = some v) :
    ∃ hord : ord < g.length, some v ∈ g[ord] := by
  unfold lookupOldToNew at h
  rcases lt_or_ge ord g.length with hord | hord
  · have hrow : g.getD ord [] = g[ord] := by
      rw [List.getD_eq_getElem?_getD g ord, List.getElem?_eq_getElem hord, Option.getD_some]
    rw [hrow] at h
    refine ⟨hord, ?_⟩
    rcases lt_or_ge d g[ord].length with hd | hd
    · rw [List.getD_eq_getElem?_getD, List.getElem?_eq_getElem hd, Option.getD_some] at h
      rw [← h]
      exact List.getElem_mem hd
    · rw [List.getD_eq_getElem?_getD, List.getElem?_eq_none (by omega)] at h
      exact Option.noConfusion h
  · rw [List.getD_eq_getElem?_getD g ord, List.getElem?_eq_none (by omega)] at h
    exact Option.noConfusion h

theorem lookup_lt_of_cross (g : List (List (Option Nat)))
    (hcross : g.Pairwise fun s₁ s₂ => ∀ v₁ v₂, some v₁ ∈ s₁ → some v₂ ∈ s₂ → v₁ < v₂)
    (ord₁ ord₂ d₁ d₂ v₁ v₂ : Nat) (hor : ord₁ < ord₂)
    (h₁ : lookupOldToNew g ord₁ d₁ = some v₁)
    (h₂ : lookupOldToNew g ord₂ d₂ = some v₂) : v₁ < v₂ := by
  obtain ⟨ho₁, hm₁⟩ := lookup_mem g ord₁ d₁ v₁ h₁
  obtain ⟨ho₂, hm₂⟩ := lookup_mem g ord₂ d₂ v₂ h₂
  rw [List.pairwise_iff_getElem] at hcross
  exact hcross ord₁ ord₂ ho₁ ho₂ hor v₁ v₂ hm₁ hm₂

/-- Sorted-mode `merged_doc_id_map` construction loop (merger.rs lines
817-821): the `k`-th doc-id-mapping entry `(old_doc_id, segment_ord)` sets
`merged_doc_id_map[segment_ord][old_doc_id] = Some(k)`. -/
def invertGo : List (List (Option Nat)) → Nat → List (Nat × Nat) → List (List (Option Nat))
  | grid, _, [] => grid
  | grid, k, e :: rest =>
    invertGo (grid.set e.2 ((grid.getD e.2 []).set e.1 (some k))) (k + 1) rest

/-- Sorted-mode `merged_doc_id_map` (merger.rs lines 807-821): per-segment
arrays of length `max_doc`, initialised to `None` and filled by enumerating
the doc-id mapping. -/
def invertDocIdMapping (readers : List SegmentReaderModel)
    (mapping : List (Nat × Nat)) : List (List (Option Nat)) :=
  invertGo (readers.map fun r => List.replicate r.maxDoc none) 0 mapping

theorem getD_set_gen {α : Type} (l : List α) (j : Nat) (x : α) (s : Nat) (d : α) :
    (l.set j x).getD s d = if j = s ∧ j < l.length then x else l.getD s d := by
  rw [List.getD_eq_getElem?_getD, List.getElem?_set]
  by_cases hjs : j = s
  · by_cases hj : j < l.length
    · rw [if_pos hjs, if_pos hj, if_pos ⟨hjs, hj⟩]
      rfl
    · rw [if_pos hjs, if_neg hj, if_neg fun h => hj h.2]
      rw [List.getD_eq_getElem?_getD, List.getElem?_eq_none (by omega)]
  · rw [if_neg hjs, if_neg fun h => hjs h.1, List.getD_eq_getElem?_getD]

theorem lookup_set (grid : List (List (Option Nat))) (ord old : Nat) (v : Option Nat)
    (s i : Nat) :
    lookupOldToNew (grid.set ord ((grid.getD ord []).set old v)) s i =
      if ord = s ∧ ord < grid.length ∧ old = i ∧ old < (grid.getD ord []).length then v
      else lookupOldToNew grid s i := by
  unfold lookupOldToNew
  rw [getD_set_gen]
  by_cases h₁ : ord = s ∧ ord < grid.length
  · rw [if_pos h₁]
    obtain ⟨rfl, hlt⟩ := h₁
    rw [getD_set_gen]
    by_cases h₂ : old = i ∧ old < (grid.getD ord []).length
    · rw [if_pos h₂, if_pos ⟨rfl, hlt, h₂.1, h₂.2⟩]
    · rw [if_neg h₂, if_neg fun hh => h₂ ⟨hh.2.2.1, hh.2.2.2⟩]
  · rw [if_neg h₁, if_neg fun hh => h₁ ⟨hh.1, hh.2.1⟩]

theorem invertGo_bound_inj :
    ∀ (mapping : List (Nat × Nat)) (grid : List (List (Option Nat))) (k : Nat),
      (∀ s i v, lookupOldToNew grid s i = some v → v < k) →
      (∀ s₁ i₁ s₂ i₂ v, lookupOldToNew grid s₁ i₁ = some v →
        lookupOldToNew grid s₂ i₂ = some v → s₁ = s₂ ∧ i₁ = i₂) →
      ∀ s₁ i₁ s₂ i₂ v, lookupOldToNew (invertGo grid k mapping) s₁ i₁ = some v →
        lookupOldToNew (invertGo grid k mapping) s₂ i₂ = some v → s₁ = s₂ ∧ i₁ = i₂
  | [], _, _, _, hinj => hinj
  | e :: rest, grid, k, hbound, hinj => by
    show ∀ s₁ i₁ s₂ i₂ v,
      lookupOldToNew (invertGo (grid.set e.2 ((grid.getD e.2 []).set e.1 (some k)))
          (k + 1) rest) s₁ i₁ = some v → _ → _
    refine invertGo_bound_inj rest _ (k + 1) ?_ ?_
    · intro s i v h
      rw [lookup_set] at h
      by_cases hc : e.2 = s ∧ e.2 < grid.length ∧ e.1 = i ∧ e.1 < (grid.getD e.2 []).length
      · rw [if_pos hc] at h
        have := Option.some.inj h
        omega
      · rw [if_neg hc] at h
        have := hbound s i v h
        omega
    · intro s₁ i₁ s₂ i₂ v h₁ h₂
      rw [lookup_set] at h₁ h₂
      by_cases hc₁ : e.2 = s₁ ∧ e.2 < grid.length ∧ e.1 = i₁ ∧ e.1 < (grid.getD e.2 []).length
      · rw [if_pos hc₁] at h₁
        by_cases hc₂ : e.2 = s₂ ∧ e.2 < grid.length ∧ e.1 = i₂ ∧
            e.1 < (grid.getD e.2 []).length
        · rw [if_pos hc₂] at h₂
          exact ⟨hc₁.1 ▸ hc₂.1, hc₁.2.2.1 ▸ hc₂.2.2.1⟩
        · rw [if_neg hc₂] at h₂
          have hv := Option.some.inj h₁
          have := hbound s₂ i₂ v h₂
          omega
      · rw [if_neg hc₁] at h₁
        by_cases hc₂ : e.2 = s₂ ∧ e.2 < grid.length ∧ e.1 = i₂ ∧
            e.1 < (grid.getD e.2 []).length
        · rw [if_pos hc₂] at h₂
          have hv := Option.some.inj h₂
          have := hbound s₁ i₁ v h₁
          omega
        · rw [if_neg hc₂] at h₂
          exact hinj s₁ i₁ s₂ i₂ v h₁ h₂

theorem invertDocIdMapping_inj (readers : List SegmentReaderModel)
    (mapping : List (Nat × Nat)) :
    ∀ s₁ i₁ s₂ i₂ v,
      lookupOldToNew (invertDocIdMapping readers mapping) s₁ i₁ = some v →
      lookupOldToNew (invertDocIdMapping readers mapping) s₂ i₂ = some v →
      s₁ = s₂ ∧ i₁ = i₂ := by
  have hinit : ∀ s i,
      lookupOldToNew (readers.map fun r => List.replicate r.maxDoc (none : Option Nat)) s i =
        none := by
    intro s i
    unfold lookupOldToNew
    rcases lt_or_ge s
        (readers.map fun r => List.replicate r.maxDoc (none : Option Nat)).length with hs | hs
    · have hrow : (readers.map fun r => List.replicate r.maxDoc (none : Option Nat)).getD s [] =
          (readers.map fun r => List.replicate r.maxDoc (none : Option Nat))[s] := by
        rw [List.getD_eq_getElem?_getD _ s, List.getElem?_eq_getElem hs, Option.getD_some]
      rw [hrow, List.getElem_map, List.getD_eq_getElem?_getD, List.getElem?_replicate]
      split <;> rfl
    · rw [List.getD_eq_getElem?_getD _ s, List.getElem?_eq_none (by omega)]
      rfl
  exact invertGo_bound_inj mapping _ 0
    (fun s i v h => by rw [hinit] at h; exact Option.noConfusion h)
    (fun s₁ i₁ s₂ i₂ v h₁ h₂ => by rw [hinit] at h₁; exact Option.noConfusion h₁)

/-- Stacking-mode posting emission for one surviving term (merger.rs lines
911-944): for each contributing segment in segment-ordinal order, walk its
posting list; docs without a remapped id (deleted) are skipped, the others
are passed to `write_doc` as `(remapped_doc_id, term_freq, delta_positions)`.
Posting entries are `(doc, term_freq, positions)` triples. -/
def emitStackedTermDocs (oldToNew : List (List (Option Nat)))
    (segs : List (Nat × List (Nat × Nat × List Nat))) : List (Nat × Nat × List Nat) :=
  segs.flatMap fun p =>
    p.2.filterMap fun pd =>
      (lookupOldToNew oldToNew p.1 pd.1).map fun nd => (nd, pd.2.1, compute_delta pd.2.2)

/-- Sorted-mode posting emission for one surviving term (merger.rs lines
911-952): buffer `(remapped_doc_id, term_freq, positions)` tuples for the
current term, sort the buffer by new doc id (`sort_unstable_by_key`), then
pass each tuple to `write_doc`; the buffer is local to the term (cleared
after each term). -/
def emitSortedTermDocs (oldToNew : List (List (Option Nat)))
    (segs : List (Nat × List (Nat × Nat × List Nat))) : List (Nat × Nat × List Nat) :=
  (segs.flatMap fun p =>
      p.2.filterMap fun pd =>
        (lookupOldToNew oldToNew p.1 pd.1).map fun nd => (nd, pd.2.1, pd.2.2)).mergeSort
    fun a b => decide (a.1 ≤ b.1)

theorem flatMap_filterMap_pairwise (g : List (List (Option Nat)))
    (segs : List (Nat × List (Nat × Nat × List Nat))) (R : Nat → Nat → Prop)
    (f : Nat × Nat × List Nat → Nat → Nat × Nat × List Nat)
    (hfst : ∀ pd nd, (f pd nd).1 = nd)
    (hords : segs.Pairwise fun p q => p.1 < q.1)
    (hdocs : ∀ p ∈ segs, p.2.Pairwise fun a b => a.1 < b.1)
    (hlt : ∀ ord₁ ord₂ d₁ d₂ v₁ v₂, (ord₁ < ord₂ ∨ (ord₁ = ord₂ ∧ d₁ < d₂)) →
      lookupOldToNew g ord₁ d₁ = some v₁ → lookupOldToNew g ord₂ d₂ = some v₂ → R v₁ v₂) :
    (segs.flatMap fun p => p.2.filterMap fun pd =>
        (lookupOldToNew g p.1 pd.1).map fun nd => f pd nd).Pairwise
      fun a b => R a.1 b.1 := by
  have heq : (segs.flatMap fun p => p.2.filterMap fun pd =>
      (lookupOldToNew g p.1 pd.1).map fun nd => f pd nd) =
      (segs.map fun p => p.2.filterMap fun pd =>
        (lookupOldToNew g p.1 pd.1).map fun nd => f pd nd).flatten := rfl
  rw [heq, List.pairwise_flatten]
  constructor
  · intro l hl
    rw [List.mem_map] at hl
    obtain ⟨p, hp, rfl⟩ := hl
    rw [List.pairwise_filterMap]
    refine (hdocs p hp).imp ?_
    intro a b hab x hx y hy
    rw [Option.mem_def, Option.map_eq_some'] at hx hy
    obtain ⟨nd₁, hnd₁, rfl⟩ := hx
    obtain ⟨nd₂, hnd₂, rfl⟩ := hy
    rw [hfst, hfst]
    exact hlt p.1 p.1 a.1 b.1 nd₁ nd₂ (Or.inr ⟨rfl, hab⟩) hnd₁ hnd₂
  · rw [List.pairwise_map]
    refine hords.imp ?_
    intro p q hpq x hx y hy
    rw [List.mem_filterMap] at hx hy
    obtain ⟨a, _, ha⟩ := hx
    obtain ⟨b, _, hb⟩ := hy
    rw [Option.map_eq_some'] at ha hb
    obtain ⟨nd₁, hnd₁, rfl⟩ := ha
    obtain ⟨nd₂, hnd₂, rfl⟩ := hb
    rw [hfst, hfst]
    exact hlt p.1 q.1 a.1 b.1 nd₁ nd₂ (Or.inl hpq) hnd₁ hnd₂

theorem emitStackedTermDocs_pairwise (readers : List SegmentReaderModel)
    (segs : List (Nat × List (Nat × Nat × List Nat)))
    (hords : segs.Pairwise fun p q => p.1 < q.1)
    (hdocs : ∀ p ∈ segs, p.2.Pairwise fun a b => a.1 < b.1) :
    (emitStackedTermDocs (stackedDocIdMap readers 0) segs).Pairwise
      fun a b => a.1 < b.1 :=
  flatMap_filterMap_pairwise (stackedDocIdMap readers 0) segs (· < ·)
    (fun pd nd => (nd, pd.2.1, compute_delta pd.2.2)) (fun _ _ => rfl) hords hdocs
    (fun ord₁ ord₂ d₁ d₂ v₁ v₂ hcase h₁ h₂ => by
      rcases hcase with hlt | ⟨rfl, hd⟩
      · exact lookup_lt_of_cross _ (stackedDocIdMap_cross readers 0)
          ord₁ ord₂ d₁ d₂ v₁ v₂ hlt h₁ h₂
      · exact lookup_lt_of_inner _ (stackedDocIdMap_inner readers 0)
          ord₁ d₁ d₂ v₁ v₂ hd h₁ h₂)

theorem emitSortedTermDocs_pairwise (readers : List SegmentReaderModel)
    (mapping : List (Nat × Nat))
    (segs : List (Nat × List (Nat × Nat × List Nat)))
    (hords : segs.Pairwise fun p q => p.1 < q.1)
    (hdocs : ∀ p ∈ segs, p.2.Pairwise fun a b => a.1 < b.1) :
    (emitSortedTermDocs (invertDocIdMapping readers mapping) segs).Pairwise
      fun a b => a.1 < b.1 := by
  have hinj := invertDocIdMapping_inj readers mapping
  have hbufNe := flatMap_filterMap_pairwise (invertDocIdMapping readers mapping) segs
    (· ≠ ·) (fun pd nd => (nd, pd.2.1, pd.2.2)) (fun _ _ => rfl) hords hdocs
    (fun ord₁ ord₂ d₁ d₂ v₁ v₂ hcase h₁ h₂ => by
      intro hv
      subst hv
      obtain ⟨ho, hi⟩ := hinj ord₁ d₁ ord₂ d₂ v₁ h₁ h₂
      rcases hcase with hlt | ⟨rfl, hd⟩
      · omega
      · omega)
  unfold emitSortedTermDocs
  have htrans : ∀ a b c : Nat × Nat × List Nat, (decide (a.1 ≤ b.1)) = true →
      (decide (b.1 ≤ c.1)) = true → (decide (a.1 ≤ c.1)) = true := by
    intro a b c h1 h2
    rw [decide_eq_true_eq] at h1 h2
    exact decide_eq_true (le_trans h1 h2)
  have htotal : ∀ a b : Nat × Nat × List Nat,
      (decide (a.1 ≤ b.1) || decide (b.1 ≤ a.1)) = true := by
    intro a b
    rcases Nat.le_total a.1 b.1 with h | h
    · rw [decide_eq_true h, Bool.true_or]
    · rw [decide_eq_true h, Bool.or_true]
  have hsorted := List.sorted_mergeSort htrans htotal
    (segs.flatMap fun p => p.2.filterMap fun pd =>
      (lookupOldToNew (invertDocIdMapping readers mapping) p.1 pd.1).map
        fun nd => (nd, pd.2.1, pd.2.2))
  have hperm := List.mergeSort_perm
    (segs.flatMap fun p => p.2.filterMap fun pd =>
      (lookupOldToNew (invertDocIdMapping readers mapping) p.1 pd.1).map
        fun nd => (nd, pd.2.1, pd.2.2))
    (fun a b => decide (a.1 ≤ b.1))
  have hne := (List.Perm.pairwise_iff (fun h => Ne.symm h) hperm).mpr hbufNe
  exact ((hsorted.imp fun h => of_decide_eq_true h).and hne).imp
    fun h => Nat.lt_of_le_of_ne h.1 h.2

/-- Claim C3: for every surviving term, the sequence of documents passed to
`write_doc` is strictly ascending in new doc id — in stacking mode because
segments are visited in segment-ordinal order over contiguous stacked
blocks, and in sorted mode because the per-term buffer is sorted by new doc
id before emission (its new doc ids are pairwise distinct because the
inverted doc-id map is injective).  Hypotheses: the term k-way merge visits
contributing segments in increasing segment-ordinal order, and each source
posting list is strictly ascending in (old) doc id. -/
theorem claim_C3 :
    (∀ (readers : List SegmentReaderModel)
        (segs : List (Nat × List (Nat × Nat × List Nat))),
      segs.Pairwise (fun p q => p.1 < q.1) →
      (∀ p ∈ segs, p.2.Pairwise fun a b => a.1 < b.1) →
      (emitStackedTermDocs (stackedDocIdMap readers 0) segs).Pairwise
        fun a b => a.1 < b.1) ∧
    (∀ (readers : List SegmentReaderModel) (mapping : List (Nat × Nat))
        (segs : List (Nat × List (Nat × Nat × List Nat))),
      segs.Pairwise (fun p q => p.1 < q.1) →
      (∀ p ∈ segs, p.2.Pairwise fun a b => a.1 < b.1) →
      (emitSortedTermDocs (invertDocIdMapping readers mapping) segs).Pairwise
        fun a b => a.1 < b.1) :=
  ⟨emitStackedTermDocs_pairwise, emitSortedTermDocs_pairwise⟩

/-- Witness for C3 on concrete two-segment posting lists, in both modes. -/
theorem claim_C3_witness :
    (emitStackedTermDocs (stackedDocIdMap [smallSegment, delSegment] 0)
        [(0, [(0, 1, [0, 2]), (2, 2, [1])]), (1, [(0, 1, [5])])]).Pairwise
      (fun a b => a.1 < b.1) ∧
    (emitSortedTermDocs (invertDocIdMapping [smallSegment, delSegment] [(0, 1), (0, 0), (2, 0)])
        [(0, [(0, 1, [0, 2]), (2, 2, [1])]), (1, [(0, 1, [5])])]).Pairwise
      (fun a b => a.1 < b.1) :=
  ⟨claim_C3.1 [smallSegment, delSegment]
      [(0, [(0, 1, [0, 2]), (2, 2, [1])]), (1, [(0, 1, [5])])] (by decide) (by decide),
   claim_C3.2 [smallSegment, delSegment] [(0, 1), (0, 0), (2, 0)]
      [(0, [(0, 1, [0, 2]), (2, 2, [1])]), (1, [(0, 1, [5])])] (by decide) (by decide)⟩

end TantivyMerger
